import Mathlib

set_option maxHeartbeats 1000000

namespace LiteEth

/-! # Verification of the LiteEth MAC CRC module (`liteeth/mac/crc.py`)

This file shallowly embeds the four components of `liteeth/mac/crc.py`:
the symbolic parallel CRC engine (`LiteEthMACCRCEngine`), the multi-lane
CRC32 unit (`LiteEthMACCRC32`), the CRC inserter pipeline
(`LiteEthMACCRCInserter`) and the CRC checker pipeline
(`LiteEthMACCRCChecker`), and proves properties of them. -/

/-! ## Symbolic CRC engine (`LiteEthMACCRCEngine`)

The Python code builds, for each output bit of the next CRC state, a list of
symbolic references to state bits (`("state", i)`) and data bits
(`("din", i)`), then evaluates each list as an XOR reduction. -/

/-- A symbolic reference to either a bit of the previous CRC state
(`("state", i)` in the source) or a bit of the data input (`("din", i)`). -/
inductive Ref where
  | state : Nat → Ref
  | din : Nat → Ref
deriving DecidableEq, Repr

/-- The distinct elements of `l` in first-occurrence order; this is the key
order of the `OrderedDict` built by `_optimize_eq` in the source. -/
def dedupKeys : List Ref → List Ref
  | [] => []
  | x :: xs => x :: (dedupKeys xs).filter (fun y => y != x)

/-- `_optimize_eq` from the source: group equal references, drop those
occurring an even number of times, keep one copy of those occurring an odd
number of times (in first-occurrence order). -/
def optimize_eq (l : List Ref) : List Ref :=
  (dedupKeys l).filter (fun k => l.count k % 2 == 1)

/-- Evaluate a symbolic XOR term list under an assignment of the references,
as `reduce(xor, xors)` does in the source (an empty list evaluates to
`false`; the source never builds an empty list for the widths it is used
at). -/
def evalXor (a : Ref → Bool) (l : List Ref) : Bool :=
  l.foldr (fun r acc => xor (a r) acc) false

theorem evalXor_nil (a : Ref → Bool) : evalXor a [] = false := rfl

theorem evalXor_cons (a : Ref → Bool) (x : Ref) (t : List Ref) :
    evalXor a (x :: t) = xor (a x) (evalXor a t) := rfl

theorem evalXor_append (a : Ref → Bool) (l₁ l₂ : List Ref) :
    evalXor a (l₁ ++ l₂) = xor (evalXor a l₁) (evalXor a l₂) := by
  induction l₁ with
  | nil => simp [evalXor_nil, List.nil_append]
  | cons x t ih =>
    rw [List.cons_append, evalXor_cons, evalXor_cons, ih, Bool.xor_assoc]

/-- `evalXor` only depends on the parity of the number of satisfied
references. -/
theorem evalXor_eq_parity (a : Ref → Bool) (l : List Ref) :
    evalXor a l = (l.countP a % 2 == 1) := by
  induction l with
  | nil => rfl
  | cons x t ih =>
    rw [evalXor_cons, ih, List.countP_cons]
    cases hax : a x <;>
      rcases Nat.mod_two_eq_zero_or_one (t.countP a) with h | h <;>
        simp [hax, Nat.add_mod, h]

theorem mem_dedupKeys {r : Ref} {l : List Ref} : r ∈ dedupKeys l ↔ r ∈ l := by
  induction l with
  | nil => simp [dedupKeys]
  | cons x t ih =>
    by_cases hrx : r = x
    · subst hrx; simp [dedupKeys]
    · simp only [dedupKeys, List.mem_cons, List.mem_filter, ih]
      constructor
      · rintro (h | ⟨h, _⟩)
        · exact absurd h hrx
        · exact Or.inr h
      · rintro (h | h)
        · exact absurd h hrx
        · exact Or.inr ⟨h, by simpa using hrx⟩

theorem dedupKeys_filter (x : Ref) (l : List Ref) :
    dedupKeys (l.filter (fun y => y != x)) =
      (dedupKeys l).filter (fun y => y != x) := by
  induction l with
  | nil => rfl
  | cons y t ih =>
    by_cases hyx : y = x
    · subst hyx
      have h1 : (y :: t).filter (fun z => z != y) =
          t.filter (fun z => z != y) := by
        simp [List.filter_cons]
      rw [h1, ih,
        show dedupKeys (y :: t) = y :: (dedupKeys t).filter (fun z => z != y)
          from rfl,
        List.filter_cons]
      simp only [bne_self_eq_false, Bool.false_eq_true, if_false,
        List.filter_filter]
      exact (List.filter_congr
        (fun a _ => by cases h : a == y <;> simp [h])).symm
    · have hyx' : (y != x) = true := by simpa using hyx
      have h1 : (y :: t).filter (fun z => z != x) =
          y :: t.filter (fun z => z != x) := by
        simp [List.filter_cons, hyx']
      rw [h1,
        show dedupKeys (y :: t.filter (fun z => z != x)) =
            y :: (dedupKeys (t.filter (fun z => z != x))).filter
              (fun z => z != y) from rfl,
        ih,
        show dedupKeys (y :: t) = y :: (dedupKeys t).filter (fun z => z != y)
          from rfl,
        List.filter_cons]
      simp only [hyx', if_true, List.filter_filter]
      exact List.cons_eq_cons.mpr
        ⟨rfl, List.filter_congr (fun a _ => Bool.and_comm _ _)⟩

theorem count_filter_ne (r x : Ref) (l : List Ref) (hrx : r ≠ x) :
    (l.filter (fun y => y != x)).count r = l.count r := by
  induction l with
  | nil => rfl
  | cons y t ih =>
    by_cases hyx : y = x
    · subst hyx
      have : (r == y) = false := by simpa using hrx
      simp [List.filter_cons, List.count_cons, this, ih, Ne.symm hrx]
    · have hyx' : (y != x) = true := by simpa using hyx
      simp [List.filter_cons, hyx', List.count_cons, ih]

theorem countP_split (a : Ref → Bool) (x : Ref) (l : List Ref) :
    l.countP a =
      (if a x then l.count x else 0) +
        (l.filter (fun y => y != x)).countP a := by
  induction l with
  | nil => simp
  | cons y t ih =>
    by_cases hyx : y = x
    · subst hyx
      simp only [List.countP_cons, List.count_cons_self, List.filter_cons,
        bne_self_eq_false, if_false]
      rw [ih]
      cases hay : a y <;> simp [hay] <;> omega
    · have hyx' : (y != x) = true := by simpa using hyx
      have hxy : (y == x) = false := by simpa using hyx
      simp only [List.countP_cons, List.count_cons, hxy, if_false,
        List.filter_cons, hyx', if_true]
      rw [ih]
      cases hay : a y <;> simp [hay] <;> omega

theorem optimize_eq_cons (x : Ref) (t : List Ref) :
    optimize_eq (x :: t) =
      (if (x :: t).count x % 2 == 1 then [x] else []) ++
        optimize_eq (t.filter (fun y => y != x)) := by
  unfold optimize_eq
  have hded : dedupKeys (x :: t) =
      x :: dedupKeys (t.filter (fun y => y != x)) := by
    rw [dedupKeys_filter]; rfl
  rw [hded, List.filter_cons]
  have hcongr :
      (dedupKeys (t.filter (fun y => y != x))).filter
          (fun k => (x :: t).count k % 2 == 1) =
        (dedupKeys (t.filter (fun y => y != x))).filter
          (fun k => (t.filter (fun y => y != x)).count k % 2 == 1) := by
    apply List.filter_congr
    intro k hk
    have hkmem : k ∈ t.filter (fun y => y != x) := mem_dedupKeys.mp hk
    have hknx : k ≠ x := by
      have := List.of_mem_filter hkmem
      simpa using this
    have h1 : (x :: t).count k = t.count k := by
      have : (k == x) = false := by simpa using hknx
      simp [List.count_cons, this, Ne.symm hknx]
    rw [h1, count_filter_ne k x t hknx]
  rw [hcongr]
  cases h : ((x :: t).count x % 2 == 1) <;> simp [h]

theorem length_filter_ne_lt (x : Ref) (t : List Ref) :
    (t.filter (fun y => y != x)).length < (x :: t).length :=
  Nat.lt_succ_of_le (List.length_filter_le _ t)

theorem parity_add (u v : Nat) :
    ((u + v) % 2 == 1) = xor (u % 2 == 1) (v % 2 == 1) := by
  rcases Nat.mod_two_eq_zero_or_one u with h | h <;>
    rcases Nat.mod_two_eq_zero_or_one v with h2 | h2 <;>
      simp [Nat.add_mod, h, h2]

theorem parity_succ (u : Nat) : ((u + 1) % 2 == 1) = !(u % 2 == 1) := by
  rcases Nat.mod_two_eq_zero_or_one u with h | h <;> simp [Nat.add_mod, h]

theorem evalXor_optimize_eq_aux (a : Ref → Bool) :
    ∀ (n : Nat) (l : List Ref), l.length ≤ n →
      evalXor a (optimize_eq l) = evalXor a l := by
  intro n
  induction n with
  | zero =>
    intro l hl
    have : l = [] := List.length_eq_zero.mp (Nat.le_zero.mp hl)
    subst this; rfl
  | succ n ih =>
    intro l hl
    match l with
    | [] => rfl
    | x :: t =>
      have hlt : (t.filter (fun y => y != x)).length ≤ n :=
        Nat.le_of_lt_succ (Nat.lt_of_lt_of_le (length_filter_ne_lt x t) hl)
      rw [optimize_eq_cons, evalXor_append, ih _ hlt]
      rw [evalXor_eq_parity a (x :: t),
        countP_split a x (x :: t)]
      have hfil : (x :: t).filter (fun y => y != x) =
          t.filter (fun y => y != x) := by
        simp [List.filter_cons]
      rw [hfil, evalXor_eq_parity a (t.filter (fun y => y != x))]
      have hcx : (x :: t).count x = t.count x + 1 := by
        simp [List.count_cons]
      rw [hcx, parity_add]
      rcases Nat.mod_two_eq_zero_or_one (t.count x) with hc | hc <;>
        rcases Nat.mod_two_eq_zero_or_one
            ((t.filter (fun y => y != x)).countP a) with hp | hp <;>
          cases hax : a x <;>
            simp [hax, hc, hp, Nat.add_mod, evalXor_cons, evalXor_nil]

/-- `_optimize_eq` preserves the value of the XOR reduction under every
assignment. -/
theorem evalXor_optimize_eq (a : Ref → Bool) (l : List Ref) :
    evalXor a (optimize_eq l) = evalXor a l :=
  evalXor_optimize_eq_aux a l.length l le_rfl

/-! ### The symbolic construction of the parallel update network

`LiteEthMACCRCEngine.__init__` starts from the identity mapping
(`curval = [[("state", i)] for i in range(width)]`) and, for each data bit
`i` (low bit first), pops the top slot, XORs the data bit into it to form
the feedback term, folds the feedback into every tap position, and
re-inserts the feedback at slot 0. -/

/-- One iteration of the `for i in range(data_width)` loop of
`LiteEthMACCRCEngine.__init__`: `feedback = curval.pop() + [("din", i)]`,
then for each `j < width - 1` the slot is updated with the feedback when
`j + 1` is a tap position and passed through `_optimize_eq`, and finally
the feedback is inserted at slot 0. -/
def crcStep (width : Nat) (taps : List Nat) (cv : List (List Ref)) (i : Nat) :
    List (List Ref) :=
  let feedback := cv.getLastD [] ++ [Ref.din i]
  let popped := cv.dropLast
  feedback ::
    (List.range (width - 1)).map (fun j =>
      optimize_eq (popped.getD j [] ++ if j + 1 ∈ taps then feedback else []))

/-- `curval = [[("state", i)] for i in range(width)]` from the source. -/
def curvalInit (width : Nat) : List (List Ref) :=
  (List.range width).map (fun i => [Ref.state i])

/-- The symbolic XOR network built by `LiteEthMACCRCEngine` for a given
data width: slot `i` holds the term list driving bit `i` of `self.next`. -/
def crcCurval (width : Nat) (taps : List Nat) (data_width : Nat) :
    List (List Ref) :=
  (List.range data_width).foldl (crcStep width taps) (curvalInit width)

/-- The assignment of symbolic references used to evaluate the network:
`("state", i)` reads bit `i` of the previous CRC value (`self.last`),
`("din", i)` reads bit `i` of the data input (`self.data`). -/
def refAssign (sb db : Nat → Bool) : Ref → Bool
  | .state i => sb i
  | .din i => db i

/-! ### The bit-serial LFSR reference

Modelled from the spec (§4.1): one serial shift moves every slot down by
one, the bit shifted out of the top slot XORed with the incoming data bit
becomes the feedback term, which lands in the new slot 0 (the new input
bit's own term) and is XORed into every tap position dictated by the
polynomial. -/

/-- One shift of the bit-serial LFSR recurrence with `width`-bit state. -/
def lfsrStep (width : Nat) (taps : List Nat) (s : List Bool) (b : Bool) :
    List Bool :=
  let fb := xor (s.getD (width - 1) false) b
  fb :: (List.range (width - 1)).map (fun j =>
    xor (s.getD j false) (decide (j + 1 ∈ taps) && fb))

/-- Feed a list of data bits (first list element first) through the
bit-serial LFSR recurrence. -/
def lfsrRun (width : Nat) (taps : List Nat) (s : List Bool)
    (bits : List Bool) : List Bool :=
  bits.foldl (lfsrStep width taps) s

theorem lfsrRun_nil (width : Nat) (taps : List Nat) (s : List Bool) :
    lfsrRun width taps s [] = s := rfl

theorem lfsrRun_append (width : Nat) (taps : List Nat) (s : List Bool)
    (b₁ b₂ : List Bool) :
    lfsrRun width taps s (b₁ ++ b₂) =
      lfsrRun width taps (lfsrRun width taps s b₁) b₂ :=
  List.foldl_append _ _ _ _

/-! ### Helper lemmas about list indexing -/

theorem getLastD_eq_getD {α : Type} (l : List α) (d : α) (h : l ≠ []) :
    l.getLastD d = l.getD (l.length - 1) d := by
  induction l with
  | nil => exact absurd rfl h
  | cons x t ih =>
    cases t with
    | nil => rfl
    | cons y u =>
      have : (x :: y :: u).getLastD d = (y :: u).getLastD d := rfl
      rw [this, ih (by simp)]
      rfl

theorem getD_dropLast {α : Type} (l : List α) (d : α) (j : Nat)
    (h : j < l.length - 1) :
    l.dropLast.getD j d = l.getD j d := by
  induction l generalizing j with
  | nil => simp at h
  | cons x t ih =>
    cases t with
    | nil => simp at h
    | cons y u =>
      cases j with
      | zero => rfl
      | succ j =>
        have hj : j < (y :: u).length - 1 := by
          simp at h ⊢; omega
        exact ih j hj

theorem getD_map_evalXor (a : Ref → Bool) (cv : List (List Ref)) (j : Nat)
    (h : j < cv.length) :
    (cv.map (evalXor a)).getD j false = evalXor a (cv.getD j []) := by
  induction cv generalizing j with
  | nil => simp at h
  | cons x t ih =>
    cases j with
    | zero => rfl
    | succ j => exact ih j (by simpa using h)

/-! ### The simulation proof: symbolic network vs. bit-serial reference -/

theorem crcStep_length (width : Nat) (hw : 1 ≤ width) (taps : List Nat)
    (cv : List (List Ref)) (i : Nat) :
    (crcStep width taps cv i).length = width := by
  simp [crcStep]; omega

theorem crcCurval_length (width : Nat) (hw : 1 ≤ width) (taps : List Nat) :
    ∀ W, (crcCurval width taps W).length = width := by
  intro W
  induction W with
  | zero => simp [crcCurval, curvalInit]
  | succ W ih =>
    unfold crcCurval
    rw [List.range_succ, List.foldl_append]
    exact crcStep_length width hw taps _ W

theorem crcCurval_succ (width : Nat) (taps : List Nat) (W : Nat) :
    crcCurval width taps (W + 1) =
      crcStep width taps (crcCurval width taps W) W := by
  unfold crcCurval
  rw [List.range_succ, List.foldl_append]
  rfl

/-- One step of the symbolic construction simulates one serial LFSR shift:
evaluating the network built after folding in data bit `i` equals shifting
the evaluation of the previous network by the value of data bit `i`. -/
theorem crcStep_sim (width : Nat) (hw : 1 ≤ width) (taps : List Nat)
    (a : Ref → Bool) (cv : List (List Ref)) (hlen : cv.length = width)
    (i : Nat) :
    (crcStep width taps cv i).map (evalXor a) =
      lfsrStep width taps (cv.map (evalXor a)) (a (Ref.din i)) := by
  have hne : cv ≠ [] := by
    intro hcv; rw [hcv] at hlen; simp at hlen; omega
  have hfb : evalXor a (cv.getLastD [] ++ [Ref.din i]) =
      xor ((cv.map (evalXor a)).getD (width - 1) false) (a (Ref.din i)) := by
    rw [evalXor_append, getLastD_eq_getD cv [] hne, hlen,
      getD_map_evalXor a cv (width - 1) (by omega),
      evalXor_cons, evalXor_nil, Bool.xor_false]
  unfold crcStep lfsrStep
  simp only [List.map_cons, List.map_map]
  refine congrArg₂ List.cons hfb ?_
  apply List.map_congr_left
  intro j hj
  have hjlt : j < width - 1 := List.mem_range.mp hj
  simp only [Function.comp_apply]
  rw [evalXor_optimize_eq, evalXor_append,
    getD_dropLast cv [] j (by omega),
    getD_map_evalXor a cv j (by omega)]
  by_cases htap : j + 1 ∈ taps
  · simp only [htap, if_true]
    rw [hfb]
    simp
  · simp [htap, evalXor_nil]

/-- The parallel update network built by `LiteEthMACCRCEngine` computes,
bit for bit, the result of feeding the `W` data bits (low bit first) one
at a time through the bit-serial LFSR recurrence. -/
theorem crcCurval_eq_lfsrRun (width : Nat) (hw : 1 ≤ width)
    (taps : List Nat) (sb db : Nat → Bool) (W : Nat) :
    (crcCurval width taps W).map (evalXor (refAssign sb db)) =
      lfsrRun width taps ((List.range width).map sb)
        ((List.range W).map db) := by
  induction W with
  | zero =>
    simp only [crcCurval, List.range_zero, List.foldl_nil, List.map_nil,
      lfsrRun_nil, curvalInit, List.map_map]
    apply List.map_congr_left
    intro i _
    simp [Function.comp_apply, evalXor_cons, evalXor_nil, refAssign]
  | succ W ih =>
    rw [crcCurval_succ, List.range_succ, List.map_append, lfsrRun_append,
      ← ih,
      crcStep_sim width hw taps _ _ (crcCurval_length width hw taps W) W]
    rfl

/-! ### Numeric interface of the engine -/

/-- Interpret a list of bits (head = bit 0) as a natural number; this is
how the bits of the `Signal` `self.next` form its value. -/
def bitsToNat (l : List Bool) : Nat :=
  l.foldr (fun b n => (if b then 1 else 0) + 2 * n) 0

/-- The low `w` bits of `n`, low bit first; this is how a `w`-bit `Signal`
carrying the value `n` reads out as bits. -/
def natToBits (w n : Nat) : List Bool :=
  (List.range w).map n.testBit

/-- `taps = [x for x in range(width) if (1 << x) & polynom]` from
`LiteEthMACCRCEngine.__init__`. -/
def tapsOf (width polynom : Nat) : List Nat :=
  (List.range width).filter (fun x => polynom.testBit x)

/-- The combinational function `next = f(last, data)` realized by
`LiteEthMACCRCEngine(data_width, width, polynom)`: bit `i` of the result
is the XOR reduction of slot `i` of the optimized symbolic network, with
`("state", n)` reading bit `n` of `last` and `("din", n)` reading bit `n`
of `data`. -/
def engineNext (data_width width polynom state data : Nat) : Nat :=
  bitsToNat ((crcCurval width (tapsOf width polynom) data_width).map
    (evalXor (refAssign state.testBit data.testBit)))

/-! ### Bit/number bridge lemmas -/

theorem length_natToBits (w n : Nat) : (natToBits w n).length = w := by
  simp [natToBits]

theorem natToBits_mod (w n : Nat) : natToBits w (n % 2 ^ w) = natToBits w n := by
  unfold natToBits
  apply List.map_congr_left
  intro i hi
  rw [Nat.testBit_mod_two_pow]
  simp [List.mem_range.mp hi]

theorem bitsToNat_cons (b : Bool) (t : List Bool) :
    bitsToNat (b :: t) = Nat.bit b (bitsToNat t) := by
  cases b <;> simp [bitsToNat, Nat.bit] <;> omega

theorem testBit_bitsToNat (l : List Bool) (i : Nat) :
    (bitsToNat l).testBit i = l.getD i false := by
  induction l generalizing i with
  | nil => simp [bitsToNat, Nat.zero_testBit]
  | cons b t ih =>
    rw [bitsToNat_cons]
    cases i with
    | zero => simp [Nat.testBit_bit_zero]
    | succ i => simp [Nat.testBit_bit_succ, ih]

theorem natToBits_bitsToNat (w : Nat) (l : List Bool) (h : l.length = w) :
    natToBits w (bitsToNat l) = l := by
  apply List.ext_getElem
  · simp [length_natToBits, h]
  · intro i h1 h2
    simp only [natToBits, List.getElem_map, List.getElem_range]
    rw [testBit_bitsToNat, List.getD_eq_getElem l false h2]

theorem bitsToNat_lt (l : List Bool) : bitsToNat l < 2 ^ l.length := by
  induction l with
  | nil => simp [bitsToNat]
  | cons b t ih =>
    rw [bitsToNat_cons]
    cases b <;> simp [Nat.bit] <;> [skip; skip] <;>
      · simp only [List.length_cons, pow_succ]
        omega

theorem natToBits_add (a b n : Nat) :
    natToBits (a + b) n = natToBits a n ++ natToBits b (n >>> a) := by
  unfold natToBits
  rw [List.range_add, List.map_append, List.map_map]
  congr 1
  apply List.map_congr_left
  intro i _
  simp [Nat.testBit_shiftRight]

theorem lfsrStep_length (width : Nat) (hw : 1 ≤ width) (taps : List Nat)
    (s : List Bool) (b : Bool) : (lfsrStep width taps s b).length = width := by
  simp [lfsrStep]; omega

theorem lfsrRun_length (width : Nat) (hw : 1 ≤ width) (taps : List Nat)
    (s : List Bool) (bits : List Bool) (hs : s.length = width) :
    (lfsrRun width taps s bits).length = width := by
  induction bits generalizing s with
  | nil => exact hs
  | cons b t ih =>
    show (lfsrRun width taps (lfsrStep width taps s b) t).length = width
    exact ih _ (lfsrStep_length width hw taps s b)

/-! ## The CRC32 unit (`LiteEthMACCRC32`)

`LiteEthMACCRC32(data_width)` keeps `dw = data_width//8` sub-engines of
widths 8, 16, …, `data_width` bits; every sub-engine reads the previous
register of the widest lane (`regs[-1]`) and its own slice
`self.data[:(e+1)*8]` of the data word. -/

def crc32Polynom : Nat := 0x04C11DB7

def crc32Init : Nat := 2 ^ 32 - 1

def crc32Check : Nat := 0xC704DD7B

def crc32Taps : List Nat := tapsOf 32 crc32Polynom

/-- `engines[e].next` as a function of `engines[e].last = regs[-1]` and
`engines[e].data = self.data[:(e+1)*8]`. -/
def laneNext (e regLast data : Nat) : Nat :=
  engineNext ((e + 1) * 8) 32 crc32Polynom regLast (data % 2 ^ ((e + 1) * 8))

/-- The synchronous update `regs[e].eq(engines[e].next)` on an enabled
clock edge, for all `dw` lanes simultaneously. -/
def crc32Update (dwB : Nat) (regs : List Nat) (data : Nat) : List Nat :=
  (List.range dwB).map (fun e => laneNext e (regs.getD (dwB - 1) 0) data)

/-- The register reset values (`Signal(self.width, reset=self.init)`). -/
def crc32Reset (dwB : Nat) : List Nat :=
  List.replicate dwB crc32Init

/-- The backwards-compatibility default: the internal `last_be` falls back
to `2**(dw-1)` (highest byte lane) when the input `last_be` is zero. -/
def crc32EffLastBe (dwB lastBe : Nat) : Nat :=
  if lastBe ≠ 0 then lastBe else 2 ^ (dwB - 1)

/-- The lane driven onto `value`/`error` by the comb `If(last_be[e], ...)`
chain: in Migen the last matching `If` in program order wins, so the
highest set bit below `dw` is selected (`none` when no bit is set). -/
def selFold (m n : Nat) : Option Nat :=
  (List.range n).foldl (fun acc e => if m.testBit e then some e else acc) none

def crc32SelLane (dwB lastBe : Nat) : Option Nat :=
  selFold (crc32EffLastBe dwB lastBe) dwB

/-- `~(regs[e][::-1])`: bit-reverse the 32-bit register, then complement. -/
def crc32ValueOf (r : Nat) : Nat :=
  bitsToNat (((natToBits 32 r).reverse).map (fun b => !b))

/-- The `value` output of `LiteEthMACCRC32` (0 if no `If` matches, which
cannot happen since `last_be` defaults to a nonzero mask). -/
def crc32Value (dwB : Nat) (regs : List Nat) (lastBe : Nat) : Nat :=
  match crc32SelLane dwB lastBe with
  | some e => crc32ValueOf (regs.getD e 0)
  | none => 0

/-- The `error` output of `LiteEthMACCRC32`: combinational comparison of
the selected lane's `engines[e].next` against `self.check`. -/
def crc32Error (dwB : Nat) (regs : List Nat) (data lastBe : Nat) : Bool :=
  match crc32SelLane dwB lastBe with
  | some e => laneNext e (regs.getD (dwB - 1) 0) data != crc32Check
  | none => false

theorem selFold_succ (m n : Nat) :
    selFold m (n + 1) = if m.testBit n then some n else selFold m n := by
  unfold selFold
  rw [List.range_succ, List.foldl_append]
  rfl

theorem selFold_two_pow (k : Nat) :
    ∀ n, k < n → selFold (2 ^ k) n = some k := by
  intro n
  induction n with
  | zero => intro h; omega
  | succ n ih =>
    intro h
    rw [selFold_succ]
    by_cases hkn : k = n
    · subst hkn; simp [Nat.testBit_two_pow_self]
    · have : (2 ^ k).testBit n = false := by
        rw [Nat.testBit_two_pow]; simp [hkn]
      rw [this]
      simp only [Bool.false_eq_true, if_false]
      exact ih (by omega)

/-! ### Serial characterizations used throughout -/

theorem engineNext_eq_serial (W N P s d : Nat) (hN : 1 ≤ N) :
    engineNext W N P s d =
      bitsToNat (lfsrRun N (tapsOf N P) (natToBits N s) (natToBits W d)) := by
  unfold engineNext natToBits
  exact congrArg bitsToNat
    (crcCurval_eq_lfsrRun N hN (tapsOf N P) s.testBit d.testBit W)

theorem laneNext_eq_serial (e r d : Nat) :
    laneNext e r d =
      bitsToNat (lfsrRun 32 crc32Taps (natToBits 32 r)
        (natToBits ((e + 1) * 8) d)) := by
  unfold laneNext crc32Taps
  rw [engineNext_eq_serial _ _ _ _ _ (by omega), natToBits_mod]

/-- The bits put on the wire by a sequence of bytes, least significant bit
of each byte first, bytes in list order. -/
def byteBits (bs : List Nat) : List Bool :=
  bs.foldr (fun b acc => natToBits 8 b ++ acc) []

theorem byteBits_cons (b : Nat) (t : List Nat) :
    byteBits (b :: t) = natToBits 8 b ++ byteBits t := rfl

theorem byteBits_append (s t : List Nat) :
    byteBits (s ++ t) = byteBits s ++ byteBits t := by
  induction s with
  | nil => rfl
  | cons b u ih =>
    rw [List.cons_append, byteBits_cons, byteBits_cons, ih, List.append_assoc]

/-- Folding bytes through the width-8 sub-engine is the serial LFSR run
over the concatenated bits. -/
theorem foldl_laneNext0_eq_serial (S : List Bool) (hS : S.length = 32) :
    ∀ bs : List Nat,
      bs.foldl (fun r d => laneNext 0 r d) (bitsToNat S) =
        bitsToNat (lfsrRun 32 crc32Taps S (byteBits bs)) := by
  intro bs
  induction bs generalizing S with
  | nil => rfl
  | cons b t ih =>
    have h1 : laneNext 0 (bitsToNat S) b =
        bitsToNat (lfsrRun 32 crc32Taps S (natToBits 8 b)) := by
      rw [laneNext_eq_serial, natToBits_bitsToNat 32 S hS]
    have hlen : (lfsrRun 32 crc32Taps S (natToBits 8 b)).length = 32 :=
      lfsrRun_length 32 (by omega) crc32Taps S _ hS
    simp only [List.foldl_cons]
    rw [h1, ih _ hlen, byteBits_cons, lfsrRun_append]

theorem crc32Update_getD (dwB : Nat) (regs : List Nat) (d k : Nat)
    (hk : k < dwB) :
    (crc32Update dwB regs d).getD k 0 =
      laneNext k (regs.getD (dwB - 1) 0) d := by
  unfold crc32Update
  rw [List.getD_eq_getElem _ _ (by simpa using hk)]
  simp

/-! ## Claim C2 -/

/-- C2: for every data width `W`, register width `N ≥ 1` and polynomial
`P`, for every state `s` and data word `d`, the combinational
`next_state` function built by `LiteEthMACCRCEngine` equals the result of
feeding the `W` bits of `d` (low bit first) one at a time through the
bit-serial LFSR recurrence with taps given by `P`, starting from state
`s`. -/
theorem C2_parallel_engine_eq_bit_serial (W N P s d : Nat) (hN : 1 ≤ N) :
    engineNext W N P s d =
      bitsToNat (lfsrRun N (tapsOf N P) (natToBits N s) (natToBits W d)) :=
  engineNext_eq_serial W N P s d hN

theorem C2_parallel_engine_eq_bit_serial_witness :
    1 ≤ 4 ∧
      engineNext 2 4 3 9 2 =
        bitsToNat (lfsrRun 4 (tapsOf 4 3) (natToBits 4 9) (natToBits 2 2)) :=
  ⟨by decide, C2_parallel_engine_eq_bit_serial 2 4 3 9 2 (by decide)⟩

/-! ## Claim C4 -/

/-- C4: for every `last_be`, the lane `k` driven onto the `value` and
`error` outputs of `LiteEthMACCRC32` is the position of the set bit of
`last_be` when `last_be` is one-hot, and lane `dw - 1` when
`last_be = 0`; the `value` output is the complement of the bit-reversed
register of lane `k`, and `error` is true exactly when the raw
combinational next-state of lane `k` differs from 0xC704DD7B. -/
theorem C4_lane_value_error (dwB : Nat) (regs : List Nat)
    (data lastBe k : Nat) (hdw : 1 ≤ dwB)
    (hbe : (lastBe = 2 ^ k ∧ k < dwB) ∨ (lastBe = 0 ∧ k = dwB - 1)) :
    crc32SelLane dwB lastBe = some k ∧
    crc32Value dwB regs lastBe =
      bitsToNat (((natToBits 32 (regs.getD k 0)).reverse).map (fun b => !b)) ∧
    (crc32Error dwB regs data lastBe = true ↔
      laneNext k (regs.getD (dwB - 1) 0) data ≠ crc32Check) := by
  have hsel : crc32SelLane dwB lastBe = some k := by
    rcases hbe with ⟨h1, h2⟩ | ⟨h1, h2⟩
    · unfold crc32SelLane crc32EffLastBe
      rw [h1, if_pos (by positivity)]
      exact selFold_two_pow k dwB h2
    · subst h1
      unfold crc32SelLane crc32EffLastBe
      rw [if_neg (by simp), h2]
      exact selFold_two_pow (dwB - 1) dwB (by omega)
  refine ⟨hsel, ?_, ?_⟩
  · unfold crc32Value
    rw [hsel]
    rfl
  · unfold crc32Error
    rw [hsel]
    simp [bne_iff_ne]

theorem C4_lane_value_error_witness :
    (1 ≤ 2 ∧ (((1 : Nat) = 2 ^ 0 ∧ 0 < 2) ∨ ((1 : Nat) = 0 ∧ 0 = 2 - 1))) ∧
    (crc32SelLane 2 1 = some 0 ∧
      crc32Value 2 [5, 7] 1 =
        bitsToNat (((natToBits 32 (([5, 7] : List Nat).getD 0 0)).reverse).map
          (fun b => !b)) ∧
      (crc32Error 2 [5, 7] 3 1 = true ↔
        laneNext 0 (([5, 7] : List Nat).getD (2 - 1) 0) 3 ≠ crc32Check)) :=
  ⟨⟨by decide, Or.inl ⟨by decide, by decide⟩⟩,
    C4_lane_value_error 2 [5, 7] 3 1 0 (by decide)
      (Or.inl ⟨by decide, by decide⟩)⟩

/-! ## Claim C5 -/

/-- C5: on every enabled update with data word `d`, lane `k` of the CRC32
unit recomputes its register as the CRC next-state of the previous
register of the widest lane (`regs[dw-1]`) applied to the low
`(k+1)*8` bits of `d` (stated via the bit-serial reference semantics);
all lanes read that same widest-lane previous state, and `reset` loads
every lane with 0xFFFFFFFF. -/
theorem C5_lanes_update_from_widest (dwB : Nat) (regs : List Nat)
    (d k : Nat) (hk : k < dwB) :
    (crc32Update dwB regs d).getD k 0 =
      bitsToNat (lfsrRun 32 crc32Taps (natToBits 32 (regs.getD (dwB - 1) 0))
        (natToBits ((k + 1) * 8) d)) ∧
    (crc32Reset dwB).getD k 0 = 0xFFFFFFFF := by
  constructor
  · rw [crc32Update_getD dwB regs d k hk, laneNext_eq_serial]
  · unfold crc32Reset
    rw [List.getD_eq_getElem _ _ (by simpa using hk), List.getElem_replicate]
    decide

theorem C5_lanes_update_from_widest_witness :
    0 < 1 ∧
    ((crc32Update 1 [0] 0).getD 0 0 =
      bitsToNat (lfsrRun 32 crc32Taps
        (natToBits 32 (([0] : List Nat).getD (1 - 1) 0))
        (natToBits ((0 + 1) * 8) 0)) ∧
    (crc32Reset 1).getD 0 0 = 0xFFFFFFFF) :=
  ⟨by decide, C5_lanes_update_from_widest 1 [0] 0 0 (by decide)⟩

/-! ### A numeric form of the CRC32 bit-serial recurrence

For the concrete CRC32 polynomial the serial shift can be written
arithmetically on the 32-bit register value; this form is proved equal to
the bit-list recurrence and is used both for fast evaluation and for the
XOR-linearity argument behind the residue identity. -/

/-- One CRC32 serial shift on the register value: shift up modulo `2^32`
and fold the polynomial in when the bit shifted out XORed with the
incoming bit is set (bit 0 of the polynomial provides the feedback bit
landing in slot 0). -/
def natLfsrStep (r : Nat) (b : Bool) : Nat :=
  (r <<< 1) % 2 ^ 32 ^^^ (if xor (r.testBit 31) b then crc32Polynom else 0)

def natLfsrRun (r : Nat) (bits : List Bool) : Nat :=
  bits.foldl natLfsrStep r

theorem getD_default_of_le {α : Type} (l : List α) (d : α) :
    ∀ i, l.length ≤ i → l.getD i d = d := by
  induction l with
  | nil => intro i _; cases i <;> rfl
  | cons x t ih =>
    intro i hi
    cases i with
    | zero => simp at hi
    | succ i => exact ih i (by simpa using hi)

theorem mem_tapsOf (w P i : Nat) :
    i ∈ tapsOf w P ↔ i < w ∧ P.testBit i = true := by
  simp [tapsOf, List.mem_filter, List.mem_range]

theorem testBit_ite_poly (c : Bool) (i : Nat) :
    (if c = true then crc32Polynom else 0).testBit i =
      (c && crc32Polynom.testBit i) := by
  cases c <;> simp [Nat.zero_testBit]

theorem lfsrStep_getD_zero (width : Nat) (taps : List Nat) (S : List Bool)
    (b : Bool) :
    (lfsrStep width taps S b).getD 0 false = xor (S.getD (width - 1) false) b :=
  rfl

theorem lfsrStep_getD_succ (width : Nat) (taps : List Nat) (S : List Bool)
    (b : Bool) (j : Nat) (hj : j < width - 1) :
    (lfsrStep width taps S b).getD (j + 1) false =
      xor (S.getD j false)
        (decide ((j + 1) ∈ taps) && xor (S.getD (width - 1) false) b) := by
  show ((List.range (width - 1)).map _).getD j false = _
  rw [List.getD_eq_getElem _ _ (by simpa using hj)]
  simp

/-- The numeric step agrees with the bit-list step for the CRC32 taps. -/
theorem bitsToNat_lfsrStep (S : List Bool) (hS : S.length = 32) (b : Bool) :
    bitsToNat (lfsrStep 32 crc32Taps S b) = natLfsrStep (bitsToNat S) b := by
  apply Nat.eq_of_testBit_eq
  intro i
  rw [testBit_bitsToNat]
  unfold natLfsrStep
  rw [Nat.testBit_xor, Nat.testBit_mod_two_pow, Nat.testBit_shiftLeft,
    testBit_ite_poly, testBit_bitsToNat]
  rcases Nat.lt_or_ge i 32 with hi | hi
  · match i with
    | 0 =>
      rw [lfsrStep_getD_zero]
      have h0 : crc32Polynom.testBit 0 = true := by decide
      simp [h0, testBit_bitsToNat]
    | j + 1 =>
      have hj : j < 31 := by omega
      rw [lfsrStep_getD_succ 32 crc32Taps S b j (by omega)]
      have htap : decide ((j + 1) ∈ crc32Taps) = crc32Polynom.testBit (j + 1) := by
        cases h : crc32Polynom.testBit (j + 1) <;>
          simp [crc32Taps, mem_tapsOf, h, hi]
      have hge : (decide (j + 1 ≥ 1)) = true := by simp
      have h32 : (decide (j + 1 < 32)) = true := by
        simp only [decide_eq_true_eq]
        omega
      rw [htap, testBit_bitsToNat]
      simp only [hge, h32, Bool.true_and, Nat.add_sub_cancel,
        show (32 : Nat) - 1 = 31 from rfl]
      cases S.getD j false <;> cases S.getD 31 false <;> cases b <;>
        cases crc32Polynom.testBit (j + 1) <;> rfl
  · have hlen : (lfsrStep 32 crc32Taps S b).length = 32 :=
      lfsrStep_length 32 (by omega) crc32Taps S b
    rw [getD_default_of_le _ _ i (by omega)]
    have h32 : (decide (i < 32)) = false := by simp; omega
    have hp : crc32Polynom.testBit i = false :=
      Nat.testBit_lt_two_pow
        (Nat.lt_of_lt_of_le (by decide : crc32Polynom < 2 ^ 32)
          (Nat.pow_le_pow_right (by omega) hi))
    simp [h32, hp, testBit_bitsToNat]

theorem bitsToNat_lfsrRun (S : List Bool) (hS : S.length = 32) :
    ∀ bits : List Bool,
      bitsToNat (lfsrRun 32 crc32Taps S bits) = natLfsrRun (bitsToNat S) bits := by
  intro bits
  induction bits generalizing S with
  | nil => rfl
  | cons b t ih =>
    show bitsToNat (lfsrRun 32 crc32Taps (lfsrStep 32 crc32Taps S b) t) = _
    rw [ih _ (lfsrStep_length 32 (by omega) crc32Taps S b),
      bitsToNat_lfsrStep S hS b]
    rfl

/-! ### XOR-linearity of the serial recurrence and the residue identity -/

theorem xor4_shuffle (p q r s : Nat) :
    (p ^^^ q) ^^^ (r ^^^ s) = (p ^^^ r) ^^^ (q ^^^ s) := by
  apply Nat.eq_of_testBit_eq
  intro i
  simp only [Nat.testBit_xor]
  cases p.testBit i <;> cases q.testBit i <;> cases r.testBit i <;>
    cases s.testBit i <;> rfl

theorem shiftLeft_one_xor (a b : Nat) :
    (a ^^^ b) <<< 1 = (a <<< 1) ^^^ (b <<< 1) := by
  apply Nat.eq_of_testBit_eq
  intro i
  simp [Nat.testBit_shiftLeft, Nat.testBit_xor, Bool.and_xor_distrib_left]

theorem mod_two_pow_xor (a b n : Nat) :
    (a ^^^ b) % 2 ^ n = a % 2 ^ n ^^^ b % 2 ^ n := by
  apply Nat.eq_of_testBit_eq
  intro i
  simp [Nat.testBit_mod_two_pow, Nat.testBit_xor, Bool.and_xor_distrib_left]

theorem ite_poly_xor (p q : Bool) :
    (if xor p q = true then crc32Polynom else 0) =
      (if p = true then crc32Polynom else 0) ^^^
        (if q = true then crc32Polynom else 0) := by
  cases p <;> cases q <;> simp [Nat.xor_self]

/-- The CRC32 serial step is XOR-linear in (state, input bit). -/
theorem natLfsrStep_linear (a b : Nat) (x y : Bool) :
    natLfsrStep (a ^^^ b) (xor x y) = natLfsrStep a x ^^^ natLfsrStep b y := by
  unfold natLfsrStep
  rw [shiftLeft_one_xor, mod_two_pow_xor, Nat.testBit_xor]
  rw [show xor (xor (a.testBit 31) (b.testBit 31)) (xor x y) =
      xor (xor (a.testBit 31) x) (xor (b.testBit 31) y) by
    cases a.testBit 31 <;> cases b.testBit 31 <;> cases x <;> cases y <;> rfl]
  rw [ite_poly_xor, xor4_shuffle]

theorem natLfsrRun_linear :
    ∀ (m₁ m₂ : List Bool) (a b : Nat), m₁.length = m₂.length →
      natLfsrRun (a ^^^ b) (List.zipWith xor m₁ m₂) =
        natLfsrRun a m₁ ^^^ natLfsrRun b m₂ := by
  intro m₁
  induction m₁ with
  | nil =>
    intro m₂ a b h
    have : m₂ = [] := List.length_eq_zero.mp (by simpa using h.symm)
    subst this
    rfl
  | cons x t ih =>
    intro m₂ a b h
    cases m₂ with
    | nil => simp at h
    | cons y u =>
      show natLfsrRun (natLfsrStep (a ^^^ b) (xor x y)) (List.zipWith xor t u) = _
      rw [natLfsrStep_linear, ih u _ _ (by simpa using h)]
      rfl

theorem zipWith_map_same {α β γ : Type} (f : β → β → γ) (g h : α → β)
    (l : List α) :
    List.zipWith f (l.map g) (l.map h) = l.map (fun x => f (g x) (h x)) := by
  induction l with
  | nil => rfl
  | cons x t ih => simp [ih]

/-- The bits of the register value in reversed order (bit 31 first), as
assembled by `regs[e][::-1]`. -/
def revB (s : Nat) : List Bool :=
  (List.range 32).map (fun k => s.testBit (31 - k))

theorem length_revB (s : Nat) : (revB s).length = 32 := by simp [revB]

theorem revB_linear (a b : Nat) :
    revB (a ^^^ b) = List.zipWith xor (revB a) (revB b) := by
  unfold revB
  rw [zipWith_map_same]
  apply List.map_congr_left
  intro k _
  simp [Nat.testBit_xor]

/-- The run of the recurrence on a state fed with its own reversed bits. -/
def natG (s : Nat) : Nat := natLfsrRun s (revB s)

theorem natG_linear (a b : Nat) : natG (a ^^^ b) = natG a ^^^ natG b := by
  unfold natG
  rw [revB_linear]
  exact natLfsrRun_linear (revB a) (revB b) a b (by simp [length_revB])

theorem natG_two_pow (i : Nat) (hi : i < 32) : natG (2 ^ i) = 0 := by
  have h : (List.range 32).all (fun i => natG (2 ^ i) == 0) = true := by decide
  have := List.all_eq_true.mp h i (List.mem_range.mpr hi)
  simpa using this

theorem natG_eq_zero : ∀ n, n ≤ 32 → ∀ s, s < 2 ^ n → natG s = 0 := by
  intro n
  induction n with
  | zero =>
    intro _ s hs
    have : s = 0 := by omega
    subst this
    decide
  | succ n ih =>
    intro hn s hs
    by_cases hbit : s.testBit n = true
    · have hsplit : s = (s ^^^ 2 ^ n) ^^^ 2 ^ n := by
        rw [Nat.xor_assoc, Nat.xor_self, Nat.xor_zero]
      have hlow : s ^^^ 2 ^ n < 2 ^ n := by
        apply Nat.lt_pow_two_of_testBit
        intro i hi
        rw [Nat.testBit_xor, Nat.testBit_two_pow]
        rcases Nat.eq_or_lt_of_le hi with heq | hlt
        · subst heq; simp [hbit]
        · have : s.testBit i = false :=
            Nat.testBit_lt_two_pow
              (Nat.lt_of_lt_of_le hs (Nat.pow_le_pow_right (by omega) hlt))
          simp [this, Nat.ne_of_lt hlt]
      rw [hsplit, natG_linear, ih (by omega) _ hlow,
        natG_two_pow n (by omega), Nat.xor_self]
    · have : s < 2 ^ n := by
        apply Nat.lt_pow_two_of_testBit
        intro i hi
        rcases Nat.eq_or_lt_of_le hi with heq | hlt
        · subst heq; simpa using hbit
        · exact Nat.testBit_lt_two_pow
            (Nat.lt_of_lt_of_le hs (Nat.pow_le_pow_right (by omega) hlt))
      exact ih (by omega) s this

theorem map_not_eq_zipWith_ones (l : List Bool) :
    l.map (fun b => !b) = List.zipWith xor l (List.replicate l.length true) := by
  induction l with
  | nil => rfl
  | cons b t ih => simp [ih, List.replicate_succ, Bool.xor_true]

/-- The residue identity: from any 32-bit register value `s`, feeding the
32 complemented reversed register bits (exactly the bits that the emitted
CRC trailer carries) drives the register to the residue constant
0xC704DD7B, independently of `s`. -/
theorem natResidue (s : Nat) (hs : s < 2 ^ 32) :
    natLfsrRun s ((revB s).map (fun b => !b)) = crc32Check := by
  have hones : natLfsrRun 0 (List.replicate 32 true) = crc32Check := by decide
  have h1 : (revB s).map (fun b => !b) =
      List.zipWith xor (revB s) (List.replicate 32 true) := by
    rw [map_not_eq_zipWith_ones, length_revB]
  calc natLfsrRun s ((revB s).map (fun b => !b))
      = natLfsrRun (s ^^^ 0) (List.zipWith xor (revB s) (List.replicate 32 true)) := by
        rw [Nat.xor_zero, h1]
    _ = natG s ^^^ natLfsrRun 0 (List.replicate 32 true) :=
        natLfsrRun_linear (revB s) (List.replicate 32 true) s 0
          (by simp [length_revB])
    _ = crc32Check := by
        rw [natG_eq_zero 32 le_rfl s hs, hones]
        rfl

/- From here on, proofs treat the engine's combinational function through
its serial characterization only; keeping it reducible would make
definitional-equality checks evaluate the whole symbolic network. -/
attribute [irreducible] engineNext

/-! ## Stream pipeline models

One step = one clock cycle. A `StreamIn` bundles what the surrounding
circuitry drives in a cycle: `sink.valid`, the sink payload
(`data`/`last`/`error`), and downstream `source.ready`. The `last_be`
field of the stream layout is never driven by these modules (so the CRC
unit sees `last_be = 0`) and is omitted from the element model. -/

/-- One stream element (payload `data` plus `last` and `error` flags). -/
structure Elem where
  data : Nat
  last : Bool
  error : Bool
deriving DecidableEq, Repr

instance : Inhabited Elem := ⟨⟨0, false, false⟩⟩

theorem elem_default : (default : Elem) = ⟨0, false, false⟩ := rfl

structure StreamIn where
  valid : Bool
  elem : Elem
  ready : Bool
deriving DecidableEq, Repr

/-! ### Inserter (`LiteEthMACCRCInserter`) -/

inductive InsFsm where
  | IDLE
  | COPY
  | CRC
deriving DecidableEq, Repr

structure InsState where
  fsm : InsFsm
  regs : List Nat
  cnt : Nat
deriving DecidableEq, Repr

structure InsOut where
  sinkReady : Bool
  sourceValid : Bool
  source : Elem
deriving DecidableEq, Repr

/-- `bits_for(n)` from Migen: the number of bits needed for values up to
`n`, i.e. the bit length of `n`. -/
def bitsFor (n : Nat) : Nat :=
  if n = 0 then 0 else Nat.log2 n + 1

/-- The `n` parameter of `chooser` for `cnt = Signal(max=ratio)`:
`2**len(cnt)`. -/
def chooserN (ratio : Nat) : Nat := 2 ^ bitsFor (ratio - 1)

/-- Power-on / IDLE-reset register state and counter of the inserter. -/
def insInit (dwB ratio : Nat) : InsState :=
  ⟨.IDLE, crc32Reset dwB, ratio - 1⟩

/-- One clock cycle of `LiteEthMACCRCInserter` (combinational outputs and
synchronous state update), for data width `8*dwB` bits and
`ratio = 32 / (8*dwB)`. -/
def insStep (dwB ratio : Nat) (st : InsState) (inp : StreamIn) :
    InsState × InsOut :=
  match st.fsm with
  | .IDLE =>
      -- crc.reset = 1; sink.ready = 1 overridden to 0 when sink.valid;
      -- cnt reloads its reset value; no source output is driven.
      (⟨if inp.valid then .COPY else .IDLE, crc32Reset dwB, ratio - 1⟩,
        ⟨!inp.valid, false, ⟨0, false, false⟩⟩)
  | .COPY =>
      -- crc.ce = sink.valid & source.ready; sink.connect(source) with
      -- source.last forced to 0; NextState("CRC") when
      -- sink.valid & sink.last & source.ready.
      let ce := inp.valid && inp.ready
      let regs := if ce then crc32Update dwB st.regs inp.elem.data else st.regs
      let fsm :=
        if inp.valid && inp.elem.last && inp.ready then InsFsm.CRC
        else InsFsm.COPY
      (⟨fsm, regs, st.cnt⟩,
        ⟨inp.ready, inp.valid, ⟨inp.elem.data, false, inp.elem.error⟩⟩)
  | .CRC =>
      if ratio ≤ 1 then
        -- single-cycle emission of the whole value
        (⟨if inp.ready then .IDLE else .CRC, st.regs, st.cnt⟩,
          ⟨false, true, ⟨crc32Value dwB st.regs 0, true, false⟩⟩)
      else
        -- chooser(crc.value, cnt, source.data, reverse=True):
        -- source.data = value[s*dw:(s+1)*dw] with s = n - 1 - cnt
        let cntDone := st.cnt == 0
        let chunk := chooserN ratio - 1 - st.cnt
        let data := (crc32Value dwB st.regs 0 >>> (chunk * (8 * dwB))) %
          2 ^ (8 * dwB)
        let fsm := if cntDone && inp.ready then InsFsm.IDLE else InsFsm.CRC
        let cnt :=
          if !cntDone then st.cnt - (if inp.ready then 1 else 0) else st.cnt
        (⟨fsm, st.regs, cnt⟩, ⟨false, true, ⟨data, cntDone, false⟩⟩)

/-- Drive the inserter with an always-ready downstream and a pending list
of upstream elements (each presented until accepted, `valid = 0` when the
list is exhausted), collecting the accepted source elements. -/
def insRun (dwB ratio : Nat) : Nat → InsState → List Elem → List Elem
  | 0, _, _ => []
  | fuel + 1, st, pending =>
      let inp : StreamIn :=
        match pending with
        | [] => ⟨false, ⟨0, false, false⟩, true⟩
        | e :: _ => ⟨true, e, true⟩
      let s := insStep dwB ratio st inp
      let pending2 :=
        if inp.valid && s.2.sinkReady then pending.tail else pending
      (if s.2.sourceValid then [s.2.source] else []) ++
        insRun dwB ratio fuel s.1 pending2

/-- A byte list as a packet of stream elements: `last` on the final
element only, no upstream error. -/
def mkPacket : List Nat → List Elem
  | [] => []
  | [x] => [⟨x, true, false⟩]
  | x :: y :: t => ⟨x, false, false⟩ :: mkPacket (y :: t)

/-- The stream produced by the 8-bit-wide inserter for the packet `b`,
with an always-ready downstream, from power-on. -/
def inserterOut (b : List Nat) : List Elem :=
  insRun 1 4 (b.length + 6) (insInit 1 4) (mkPacket b)

/-! ### Checker (`LiteEthMACCRCChecker`) -/

inductive ChkFsm where
  | RESET
  | IDLE
  | COPY
deriving DecidableEq, Repr

structure ChkState where
  fsm : ChkFsm
  regs : List Nat
  fifo : List Elem
deriving DecidableEq, Repr

structure ChkOut where
  sinkReady : Bool
  sourceValid : Bool
  source : Elem
  errorPulse : Bool
deriving DecidableEq, Repr

/-- Power-on state of the checker. -/
def chkInit (dwB : Nat) : ChkState :=
  ⟨.RESET, crc32Reset dwB, []⟩

/-- One clock cycle of `LiteEthMACCRCChecker`: the comb equations around
the `SyncFIFO(description, ratio + 1)` plus the RESET/IDLE/COPY FSM. -/
def chkStep (dwB ratio : Nat) (st : ChkState) (inp : StreamIn) :
    ChkState × ChkOut :=
  let fifoFull := st.fifo.length == ratio
  let sourceValid := inp.valid && fifoFull
  let fifoOut := sourceValid && inp.ready
  let fifoIn := inp.valid && (!fifoFull || fifoOut)
  let crcErr := crc32Error dwB st.regs inp.elem.data 0
  let source : Elem :=
    ⟨(st.fifo.headD default).data, inp.elem.last, inp.elem.error || crcErr⟩
  let errorPulse := sourceValid && inp.elem.last && crcErr
  let ce :=
    match st.fsm with
    | .RESET => false
    | _ => inp.valid && fifoIn
  let regs :=
    match st.fsm with
    | .RESET => crc32Reset dwB
    | _ => if ce then crc32Update dwB st.regs inp.elem.data else st.regs
  let fifoAfter :=
    match st.fsm with
    | .RESET => []
    | _ =>
        let popped := if fifoOut then st.fifo.tail else st.fifo
        if fifoIn then popped ++ [inp.elem] else popped
  let fsm :=
    match st.fsm with
    | .RESET => ChkFsm.IDLE
    | .IDLE => if inp.valid && fifoIn then ChkFsm.COPY else ChkFsm.IDLE
    | .COPY =>
        if inp.valid && fifoIn && inp.elem.last then ChkFsm.RESET
        else ChkFsm.COPY
  (⟨fsm, regs, fifoAfter⟩, ⟨fifoIn, sourceValid, source, errorPulse⟩)

/-- Run the checker over a list of per-cycle inputs, collecting the
per-cycle outputs and the final state. -/
def chkExec (dwB ratio : Nat) (st : ChkState) :
    List StreamIn → ChkState × List ChkOut
  | [] => (st, [])
  | i :: rest =>
      let s := chkStep dwB ratio st i
      let f := chkExec dwB ratio s.1 rest
      (f.1, s.2 :: f.2)

/-- The states visited (including the initial one) while running the
checker over a list of per-cycle inputs. -/
def chkStates (dwB ratio : Nat) (st : ChkState) :
    List StreamIn → List ChkState
  | [] => [st]
  | i :: rest => st :: chkStates dwB ratio (chkStep dwB ratio st i).1 rest

/-- Present a list of elements one per cycle, upstream always valid,
downstream always ready. -/
def mkInputs (xs : List Elem) : List StreamIn :=
  xs.map (fun e => ⟨true, e, true⟩)

/-- Feed a fully-backpressure-free element stream to the 8-bit checker,
starting in the cycle after the initial RESET cycle. -/
def chkRunElems (xs : List Elem) : ChkState × List ChkOut :=
  chkExec 1 4 ⟨.IDLE, crc32Reset 1, []⟩ (mkInputs xs)

/-- The elements released downstream in such a run. -/
def checkerOut (xs : List Elem) : List Elem :=
  (((chkRunElems xs).2).filter (fun o => o.sourceValid)).map (fun o => o.source)

/-- The per-cycle error pulse trace of such a run. -/
def checkerPulses (xs : List Elem) : List Bool :=
  ((chkRunElems xs).2).map (fun o => o.errorPulse)

/-! ### Specializations for the 8-bit data path (`dw = 8`, `ratio = 4`) -/

theorem natToBits_getD (w n i : Nat) (h : i < w) :
    (natToBits w n).getD i false = n.testBit i := by
  have hlen : i < (natToBits w n).length := by
    rw [length_natToBits]; exact h
  rw [List.getD_eq_getElem _ _ hlen]
  simp [natToBits]

theorem bitsToNat_natToBits (w n : Nat) :
    bitsToNat (natToBits w n) = n % 2 ^ w := by
  apply Nat.eq_of_testBit_eq
  intro i
  rw [testBit_bitsToNat, Nat.testBit_mod_two_pow]
  rcases Nat.lt_or_ge i w with h | h
  · rw [natToBits_getD w n i h]
    simp [h]
  · rw [getD_default_of_le _ _ i (by rw [length_natToBits]; omega)]
    have hd : (decide (i < w)) = false := by simp; omega
    simp [hd]

theorem natLfsrStep_lt (r : Nat) (b : Bool) : natLfsrStep r b < 2 ^ 32 := by
  unfold natLfsrStep
  have h1 : (r <<< 1) % 2 ^ 32 < 2 ^ 32 := Nat.mod_lt _ (by positivity)
  have h2 : (if xor (r.testBit 31) b = true then crc32Polynom else 0) < 2 ^ 32 := by
    split
    · decide
    · positivity
  exact Nat.xor_lt_two_pow h1 h2

theorem natLfsrRun_lt (r : Nat) (hr : r < 2 ^ 32) :
    ∀ bits, natLfsrRun r bits < 2 ^ 32 := by
  intro bits
  induction bits generalizing r with
  | nil => exact hr
  | cons b t ih => exact ih (natLfsrStep r b) (natLfsrStep_lt r b)

/-- The width-8 sub-engine next-state function, numerically. -/
theorem laneNext0_nat (r d : Nat) (hr : r < 2 ^ 32) :
    laneNext 0 r d = natLfsrRun r (natToBits 8 d) := by
  rw [laneNext_eq_serial,
    bitsToNat_lfsrRun (natToBits 32 r) (length_natToBits 32 r),
    bitsToNat_natToBits, Nat.mod_eq_of_lt hr]

theorem crc32Update_one (r d : Nat) :
    crc32Update 1 [r] d = [laneNext 0 r d] := rfl

theorem crc32Error_one (r d : Nat) :
    crc32Error 1 [r] d 0 = (laneNext 0 r d != crc32Check) := rfl

theorem crc32Value_one (r : Nat) : crc32Value 1 [r] 0 = crc32ValueOf r := rfl

theorem crc32Reset_one : crc32Reset 1 = [crc32Init] := rfl

theorem chooserN_four : chooserN 4 = 4 := by
  simp [chooserN, bitsFor, Nat.log2]

/-! ### Closed form of the inserter run (8-bit data path) -/

/-- The top-lane register after folding the packet bytes from the reset
value. -/
def insRegFold (b : List Nat) : Nat :=
  b.foldl (fun r d => laneNext 0 r d) crc32Init

/-- The four trailer elements appended by the 8-bit inserter for final
register `r`: the bytes of `value = ~reverse(r)` in increasing
significance, `last` on the final one. -/
def crcTrailer (r : Nat) : List Elem :=
  [⟨crc32ValueOf r % 2 ^ 8, false, false⟩,
    ⟨(crc32ValueOf r >>> 8) % 2 ^ 8, false, false⟩,
    ⟨(crc32ValueOf r >>> 16) % 2 ^ 8, false, false⟩,
    ⟨(crc32ValueOf r >>> 24) % 2 ^ 8, true, false⟩]

theorem insCrcRun4 (r : Nat) :
    insRun 1 4 5 ⟨.CRC, [r], 3⟩ [] = crcTrailer r := by
  simp [insRun, insStep, crc32Value_one, chooserN_four, crcTrailer]

/-- One COPY cycle of the always-ready 8-bit inserter run. -/
theorem insRun_copy_step (fuel : Nat) (r cnt : Nat) (e : Elem)
    (rest : List Elem) :
    insRun 1 4 (fuel + 1) ⟨.COPY, [r], cnt⟩ (e :: rest) =
      ⟨e.data, false, e.error⟩ ::
        insRun 1 4 fuel
          ⟨if e.last then .CRC else .COPY, [laneNext 0 r e.data], cnt⟩ rest := by
  simp only [insRun, insStep]
  rw [crc32Update_one]
  cases hl : e.last <;> simp [hl]

/-- The initial IDLE cycle of the inserter run consumes nothing and moves
to COPY with the CRC unit reset and the counter reloaded. -/
theorem insRun_idle_step (dwB ratio fuel : Nat) (regs : List Nat) (cnt : Nat)
    (e : Elem) (rest : List Elem) :
    insRun dwB ratio (fuel + 1) ⟨.IDLE, regs, cnt⟩ (e :: rest) =
      insRun dwB ratio fuel ⟨.COPY, crc32Reset dwB, ratio - 1⟩ (e :: rest) := by
  simp [insRun, insStep]

theorem insCopyRun (b : List Nat) :
    ∀ r, b ≠ [] →
      insRun 1 4 (b.length + 5) ⟨.COPY, [r], 3⟩ (mkPacket b) =
        b.map (fun x => ⟨x, false, false⟩) ++
          crcTrailer (b.foldl (fun r d => laneNext 0 r d) r) := by
  induction b with
  | nil => intro r h; exact absurd rfl h
  | cons x t ih =>
    intro r _
    cases t with
    | nil =>
      show insRun 1 4 (5 + 1) ⟨.COPY, [r], 3⟩ [⟨x, true, false⟩] = _
      rw [insRun_copy_step]
      simp [insCrcRun4]
    | cons y u =>
      show insRun 1 4 (((y :: u).length + 5) + 1) ⟨.COPY, [r], 3⟩
          (⟨x, false, false⟩ :: mkPacket (y :: u)) = _
      rw [insRun_copy_step]
      have hih := ih (laneNext 0 r x) (by simp)
      simp only [List.length_cons] at hih ⊢
      simp [hih]

/-- The inserter's output stream for a nonempty packet `b`: the packet
elements with `last` suppressed, followed by the four CRC trailer
bytes. -/
theorem inserterOut_eq (b : List Nat) (hb : b ≠ []) :
    inserterOut b =
      b.map (fun x => ⟨x, false, false⟩) ++ crcTrailer (insRegFold b) := by
  unfold inserterOut insRegFold
  cases hmk : mkPacket b with
  | nil =>
    exfalso
    cases b with
    | nil => exact hb rfl
    | cons x t => cases t <;> simp [mkPacket] at hmk
  | cons e rest =>
    rw [show b.length + 6 = (b.length + 5) + 1 by omega, insInit]
    rw [insRun_idle_step]
    rw [crc32Reset_one, show (4 : Nat) - 1 = 3 from rfl, ← hmk]
    exact insCopyRun b crc32Init hb

/-! ### Closed form of the checker run (8-bit data path) -/

instance : Inhabited ChkOut := ⟨⟨false, false, default, false⟩⟩

/-- The checker's single 32-bit lane register after folding a list of
elements. -/
def chkRefReg (r : Nat) (xs : List Elem) : Nat :=
  xs.foldl (fun r x => laneNext 0 r x.data) r

/-- The checker's staging buffer contents after ingesting a list of
elements (pop the head whenever the buffer already holds 4 = `ratio`
elements). -/
def chkRefFifo (fifo : List Elem) : List Elem → List Elem
  | [] => fifo
  | x :: rest =>
      chkRefFifo ((if fifo.length == 4 then fifo.tail else fifo) ++ [x]) rest

/-- The per-cycle output of the always-valid, always-ready 8-bit checker:
the head of the buffer is released when the buffer holds 4 elements,
annotated with the combinational residue comparison of the currently
arriving element. -/
def chkRefOut (r : Nat) (fifo : List Elem) (x : Elem) : ChkOut :=
  ⟨true, fifo.length == 4,
    ⟨(fifo.headD default).data, x.last,
      x.error || (laneNext 0 r x.data != crc32Check)⟩,
    (fifo.length == 4) && x.last && (laneNext 0 r x.data != crc32Check)⟩

/-- Reference recursion for the always-valid, always-ready 8-bit checker
run. -/
def chkRef (r : Nat) (fifo : List Elem) : List Elem → List ChkOut
  | [] => []
  | x :: rest =>
      chkRefOut r fifo x ::
        chkRef (laneNext 0 r x.data)
          ((if fifo.length == 4 then fifo.tail else fifo) ++ [x]) rest

theorem chkRef_nil (r : Nat) (fifo : List Elem) : chkRef r fifo [] = [] := rfl

theorem chkRef_cons (r : Nat) (fifo : List Elem) (x : Elem)
    (rest : List Elem) :
    chkRef r fifo (x :: rest) =
      chkRefOut r fifo x ::
        chkRef (laneNext 0 r x.data)
          ((if fifo.length == 4 then fifo.tail else fifo) ++ [x]) rest := rfl

theorem chkRefReg_cons (r : Nat) (x : Elem) (rest : List Elem) :
    chkRefReg r (x :: rest) = chkRefReg (laneNext 0 r x.data) rest := rfl

theorem chkRefFifo_cons (fifo : List Elem) (x : Elem) (rest : List Elem) :
    chkRefFifo fifo (x :: rest) =
      chkRefFifo ((if fifo.length == 4 then fifo.tail else fifo) ++ [x])
        rest := rfl

theorem chkRef_append (u : List Elem) :
    ∀ (v : List Elem) (r : Nat) (fifo : List Elem),
      chkRef r fifo (u ++ v) =
        chkRef r fifo u ++ chkRef (chkRefReg r u) (chkRefFifo fifo u) v := by
  induction u with
  | nil => intro v r fifo; rfl
  | cons x rest ih =>
    intro v r fifo
    rw [List.cons_append, chkRef_cons, ih, chkRef_cons, chkRefReg_cons,
      chkRefFifo_cons, List.cons_append]

theorem chkRefFifo_fill (u : List Elem) :
    ∀ fifo : List Elem, fifo.length + u.length ≤ 4 →
      chkRefFifo fifo u = fifo ++ u := by
  induction u with
  | nil => intro fifo _; simp [chkRefFifo]
  | cons x rest ih =>
    intro fifo h
    have hne : (fifo.length == 4) = false := by
      simp only [List.length_cons] at h
      simp; omega
    rw [chkRefFifo_cons, hne]
    simp only [Bool.false_eq_true, if_false]
    rw [ih (fifo ++ [x]) (by simp at h ⊢; omega)]
    simp

theorem chkRef_fill_invalid (u : List Elem) :
    ∀ (r : Nat) (fifo : List Elem), fifo.length + u.length ≤ 4 →
      ∀ o ∈ chkRef r fifo u, o.sourceValid = false ∧ o.errorPulse = false := by
  induction u with
  | nil => intro r fifo _ o ho; simp [chkRef_nil] at ho
  | cons x rest ih =>
    intro r fifo h o ho
    have hne : (fifo.length == 4) = false := by
      simp only [List.length_cons] at h
      simp; omega
    rw [chkRef_cons, hne] at ho
    simp only [Bool.false_eq_true, if_false] at ho
    rcases List.mem_cons.mp ho with ho | ho
    · subst ho; simp [chkRefOut, hne]
    · exact ih (laneNext 0 r x.data) (fifo ++ [x])
        (by simp only [List.length_append, List.length_cons,
              List.length_nil] at h ⊢
            omega) o ho

theorem chkRef_steady_valid (xs : List Elem) :
    ∀ (r : Nat) (fifo : List Elem), fifo.length = 4 →
      ∀ o ∈ chkRef r fifo xs, o.sourceValid = true := by
  induction xs with
  | nil => intro r fifo _ o ho; simp [chkRef_nil] at ho
  | cons x rest ih =>
    intro r fifo h o ho
    have hfull : (fifo.length == 4) = true := by simp [h]
    rw [chkRef_cons, hfull] at ho
    simp only [if_true] at ho
    rcases List.mem_cons.mp ho with ho | ho
    · subst ho; simp [chkRefOut, hfull]
    · refine ih (laneNext 0 r x.data) (fifo.tail ++ [x]) ?_ o ho
      simp [List.length_tail, h]

theorem chkRef_steady_data (xs : List Elem) :
    ∀ (r : Nat) (fifo : List Elem), fifo.length = 4 →
      (chkRef r fifo xs).map (fun o => o.source.data) =
        ((fifo ++ xs).map (fun e => e.data)).take xs.length := by
  induction xs with
  | nil => intro r fifo _; simp [chkRef_nil]
  | cons x rest ih =>
    intro r fifo h
    cases fifo with
    | nil => simp at h
    | cons f0 f =>
      have hfull : ((f0 :: f).length == 4) = true := by simp [h]
      rw [chkRef_cons, hfull]
      simp only [if_true, List.tail_cons, List.map_cons]
      rw [ih (laneNext 0 r x.data) (f ++ [x])
        (by simp only [List.length_append, List.length_cons, List.length_nil]
            simp only [List.length_cons] at h
            omega)]
      simp only [chkRefOut, List.headD_cons, List.cons_append, List.map_cons,
        List.length_cons, List.take_succ_cons, List.append_assoc,
        List.singleton_append, List.nil_append]

theorem chkRef_last_flags (xs : List Elem) :
    ∀ (r : Nat) (fifo : List Elem),
      (chkRef r fifo xs).map (fun o => o.source.last) =
        xs.map (fun e => e.last) := by
  induction xs with
  | nil => intro r fifo; rfl
  | cons x rest ih =>
    intro r fifo
    rw [chkRef_cons, List.map_cons, List.map_cons, ih]
    rfl

theorem chkRef_no_pulse (xs : List Elem) :
    ∀ (r : Nat) (fifo : List Elem),
      (∀ e ∈ xs.dropLast, e.last = false) →
      chkRefReg r xs = crc32Check →
      ∀ o ∈ chkRef r fifo xs, o.errorPulse = false := by
  induction xs with
  | nil => intro r fifo _ _ o ho; simp [chkRef_nil] at ho
  | cons x rest ih =>
    intro r fifo hlast hres o ho
    rw [chkRef_cons] at ho
    rcases List.mem_cons.mp ho with ho | ho
    · subst ho
      cases rest with
      | nil =>
        have hx : laneNext 0 r x.data = crc32Check := hres
        simp [chkRefOut, hx]
      | cons y t =>
        have hx : x.last = false := by
          apply hlast
          simp [List.dropLast_cons_of_ne_nil]
        simp [chkRefOut, hx]
    · refine ih (laneNext 0 r x.data) _ ?_ hres o ho
      intro e he
      apply hlast
      cases rest with
      | nil => simp at he
      | cons y t =>
        rw [List.dropLast_cons_of_ne_nil (by simp)]
        exact List.mem_cons_of_mem x he

theorem getLastD_cons_of_ne_nil {α : Type} [Inhabited α] (a : α)
    (l : List α) (h : l ≠ []) :
    (a :: l).getLastD default = l.getLastD default := by
  cases l with
  | nil => exact absurd rfl h
  | cons b t => rfl

theorem chkRef_ne_nil (r : Nat) (fifo : List Elem) (x : Elem)
    (rest : List Elem) : chkRef r fifo (x :: rest) ≠ [] := by
  rw [chkRef_cons]
  simp

theorem chkRef_last_error (xs : List Elem) :
    ∀ (r : Nat) (fifo : List Elem), xs ≠ [] →
      chkRefReg r xs = crc32Check →
      (xs.getLastD default).error = false →
      ((chkRef r fifo xs).getLastD default).source.error = false := by
  induction xs with
  | nil => intro r fifo h; exact absurd rfl h
  | cons x rest ih =>
    intro r fifo _ hres herr
    cases rest with
    | nil =>
      have hx : laneNext 0 r x.data = crc32Check := hres
      have hxe : x.error = false := herr
      rw [chkRef_cons, chkRef_nil]
      simp [chkRefOut, hx, hxe]
    | cons y t =>
      rw [chkRef_cons,
        getLastD_cons_of_ne_nil _ _ (chkRef_ne_nil _ _ _ _)]
      exact ih (laneNext 0 r x.data) _ (by simp) hres
        (by rw [getLastD_cons_of_ne_nil _ _ (by simp)] at herr
            exact herr)

/-! ### The cycle-accurate checker agrees with the reference recursion -/

theorem chkExec_cons (dwB ratio : Nat) (st : ChkState) (i : StreamIn)
    (rest : List StreamIn) :
    chkExec dwB ratio st (i :: rest) =
      ((chkExec dwB ratio (chkStep dwB ratio st i).1 rest).1,
        (chkStep dwB ratio st i).2 ::
          (chkExec dwB ratio (chkStep dwB ratio st i).1 rest).2) := rfl

theorem chkStep_one (fsm : ChkFsm) (hfsm : fsm = .IDLE ∨ fsm = .COPY)
    (r : Nat) (fifo : List Elem) (x : Elem) :
    chkStep 1 4 ⟨fsm, [r], fifo⟩ ⟨true, x, true⟩ =
      (⟨if fsm = .IDLE then .COPY else (if x.last then .RESET else .COPY),
          [laneNext 0 r x.data],
          (if fifo.length == 4 then fifo.tail else fifo) ++ [x]⟩,
        chkRefOut r fifo x) := by
  rcases hfsm with h | h <;> subst h <;>
    simp [chkStep, chkRefOut, crc32Error_one, crc32Update_one]

theorem chkExec_eq_chkRef (xs : List Elem) :
    ∀ (fsm : ChkFsm) (r : Nat) (fifo : List Elem),
      (fsm = .IDLE ∨ fsm = .COPY) →
      (∀ e ∈ xs.dropLast, e.last = false) →
      (chkExec 1 4 ⟨fsm, [r], fifo⟩ (mkInputs xs)).2 = chkRef r fifo xs := by
  induction xs with
  | nil => intro fsm r fifo _ _; rfl
  | cons x rest ih =>
    intro fsm r fifo hfsm hlast
    rw [show mkInputs (x :: rest) = ⟨true, x, true⟩ :: mkInputs rest from rfl,
      chkExec_cons, chkStep_one fsm hfsm, chkRef_cons]
    cases rest with
    | nil => rfl
    | cons y t =>
      have hx : x.last = false := by
        apply hlast
        rw [List.dropLast_cons_of_ne_nil (by simp)]
        exact List.mem_cons_self x _
      have hfsm2 : (if fsm = ChkFsm.IDLE then ChkFsm.COPY
          else (if x.last then ChkFsm.RESET else ChkFsm.COPY)) = ChkFsm.COPY := by
        rcases hfsm with h | h <;> subst h <;> simp [hx]
      rw [hfsm2]
      have := ih ChkFsm.COPY (laneNext 0 r x.data)
        ((if fifo.length == 4 then fifo.tail else fifo) ++ [x]) (Or.inr rfl)
        (by intro e he
            apply hlast
            rw [List.dropLast_cons_of_ne_nil (by simp)]
            exact List.mem_cons_of_mem x he)
      rw [this]

/-! ### Residue facts for a value trailer -/

theorem foldl_laneNext0_nat (bs : List Nat) :
    ∀ r, r < 2 ^ 32 →
      bs.foldl (fun r d => laneNext 0 r d) r = natLfsrRun r (byteBits bs) := by
  induction bs with
  | nil => intro r _; rfl
  | cons b t ih =>
    intro r hr
    rw [List.foldl_cons, laneNext0_nat r b hr,
      ih _ (natLfsrRun_lt r hr (natToBits 8 b)), byteBits_cons]
    unfold natLfsrRun
    rw [List.foldl_append]

theorem chkRefReg_eq_foldl (r : Nat) (xs : List Elem) :
    chkRefReg r xs =
      (xs.map (fun e => e.data)).foldl (fun r d => laneNext 0 r d) r := by
  unfold chkRefReg
  rw [List.foldl_map]

theorem byteBits_chunks (V : Nat) :
    byteBits [V % 2 ^ 8, (V >>> 8) % 2 ^ 8, (V >>> 16) % 2 ^ 8,
        (V >>> 24) % 2 ^ 8] =
      natToBits 32 V := by
  have h1 : natToBits 32 V = natToBits 8 V ++ natToBits 24 (V >>> 8) := by
    rw [show (32 : Nat) = 8 + 24 from rfl, natToBits_add]
  have h2 : natToBits 24 (V >>> 8) =
      natToBits 8 (V >>> 8) ++ natToBits 16 (V >>> 8 >>> 8) := by
    rw [show (24 : Nat) = 8 + 16 from rfl, natToBits_add]
  have h3 : natToBits 16 (V >>> 8 >>> 8) =
      natToBits 8 (V >>> 8 >>> 8) ++ natToBits 8 (V >>> 8 >>> 8 >>> 8) := by
    rw [show (16 : Nat) = 8 + 8 from rfl, natToBits_add]
  have hs1 : V >>> 8 >>> 8 = V >>> 16 := by
    rw [← Nat.shiftRight_add]
  have hs2 : V >>> 8 >>> 8 >>> 8 = V >>> 24 := by
    rw [← Nat.shiftRight_add, ← Nat.shiftRight_add]
  rw [h1, h2, h3, hs2, hs1]
  have hm : ∀ n : Nat, natToBits 8 (n % 256) = natToBits 8 n := by
    intro n
    rw [show (256 : Nat) = 2 ^ 8 from rfl, natToBits_mod]
  simp [byteBits, byteBits_cons, hm, List.append_assoc]

theorem reverse_natToBits (R : Nat) : (natToBits 32 R).reverse = revB R := by
  apply List.ext_getElem
  · simp [length_natToBits, revB]
  · intro i h1 h2
    rw [List.getElem_reverse]
    simp only [natToBits, revB, List.getElem_map, List.getElem_range,
      List.length_map, List.length_range]

theorem natToBits_value (R : Nat) :
    natToBits 32 (crc32ValueOf R) = (revB R).map (fun b => !b) := by
  unfold crc32ValueOf
  rw [natToBits_bitsToNat 32 _ (by simp [length_natToBits]),
    reverse_natToBits]

theorem chkRefReg_append (r : Nat) (u v : List Elem) :
    chkRefReg r (u ++ v) = chkRefReg (chkRefReg r u) v :=
  List.foldl_append _ _ _ _

theorem getLastD_map {α β : Type} [Inhabited α] [Inhabited β] (f : α → β)
    (l : List α) (h : l ≠ []) :
    (l.map f).getLastD default = f (l.getLastD default) := by
  induction l with
  | nil => exact absurd rfl h
  | cons x t ih =>
    cases t with
    | nil => rfl
    | cons y u =>
      rw [List.map_cons, getLastD_cons_of_ne_nil _ _ (by simp),
        getLastD_cons_of_ne_nil _ _ (by simp)]
      exact ih (by simp)

theorem getLastD_append_right {α : Type} [Inhabited α] (u : List α)
    {v : List α} (h : v ≠ []) :
    (u ++ v).getLastD default = v.getLastD default := by
  induction u with
  | nil => rfl
  | cons a u ih =>
    rw [List.cons_append, getLastD_cons_of_ne_nil _ _ (by
      intro hc
      rcases List.append_eq_nil.mp hc with ⟨_, h2⟩
      exact h h2)]
    exact ih

theorem map_data_packet (b : List Nat) :
    (b.map (fun x => (⟨x, false, false⟩ : Elem))).map (fun e => e.data) = b := by
  induction b with
  | nil => rfl
  | cons x t ih => simp only [List.map_cons, ih]

theorem map_last_packet (b : List Nat) :
    (b.map (fun x => (⟨x, false, false⟩ : Elem))).map (fun e => e.last) =
      List.replicate b.length false := by
  induction b with
  | nil => rfl
  | cons x t ih => simp [ih, List.replicate_succ]

/-- The residue identity at stream level: folding a packet and then the
four trailer bytes produced from its own final register drives the
register to the check constant. -/
theorem stream_residue (b : List Nat) :
    chkRefReg crc32Init
      (b.map (fun x => (⟨x, false, false⟩ : Elem)) ++
        crcTrailer (insRegFold b)) = crc32Check := by
  have hR : insRegFold b = natLfsrRun crc32Init (byteBits b) := by
    unfold insRegFold
    exact foldl_laneNext0_nat b crc32Init (by decide)
  have hRlt : insRegFold b < 2 ^ 32 := by
    rw [hR]
    exact natLfsrRun_lt crc32Init (by decide) _
  rw [chkRefReg_eq_foldl, List.map_append]
  rw [map_data_packet]
  have ht : (crcTrailer (insRegFold b)).map (fun e => e.data) =
      [crc32ValueOf (insRegFold b) % 2 ^ 8,
        (crc32ValueOf (insRegFold b) >>> 8) % 2 ^ 8,
        (crc32ValueOf (insRegFold b) >>> 16) % 2 ^ 8,
        (crc32ValueOf (insRegFold b) >>> 24) % 2 ^ 8] := rfl
  rw [ht, List.foldl_append]
  show List.foldl (fun r d => laneNext 0 r d) (insRegFold b) _ = _
  rw [foldl_laneNext0_nat _ (insRegFold b) hRlt, byteBits_chunks,
    natToBits_value]
  exact natResidue (insRegFold b) hRlt

/-! ## Claim C1 -/

/-- C1 (amended): for every nonempty byte packet `b`, feeding `b` through
the 8-bit inserter and the result through the 8-bit checker reproduces
`b` exactly, with `last` exactly on the final released element, `error`
false on that final released element, and the checker's one-shot error
pulse never firing. (The original claim also asserted `error = false` on
every earlier released element; on the code the `error` field of a
released element carries the live residue comparison of the cycle that
releases it, which is true mid-packet — see the counterexample.) -/
theorem C1_round_trip (b : List Nat) (hb : b ≠ []) :
    (checkerOut (inserterOut b)).map (fun e => e.data) = b ∧
    (checkerOut (inserterOut b)).map (fun e => e.last) =
      List.replicate (b.length - 1) false ++ [true] ∧
    ((checkerOut (inserterOut b)).getLastD default).error = false ∧
    (∀ p ∈ checkerPulses (inserterOut b), p = false) := by
  have hT : crcTrailer (insRegFold b) ≠ [] := by simp [crcTrailer]
  set bE := b.map (fun x => (⟨x, false, false⟩ : Elem)) with hbE
  set T := crcTrailer (insRegFold b) with hTdef
  have hys : inserterOut b = bE ++ T := inserterOut_eq b hb
  have hbElen : bE.length = b.length := by simp [hbE]
  have hTlen : T.length = 4 := by rw [hTdef]; rfl
  have hyslen : (bE ++ T).length = b.length + 4 := by
    rw [List.length_append, hbElen, hTlen]
  have hb1 : 1 ≤ b.length := by
    cases b with
    | nil => exact absurd rfl hb
    | cons x t => simp
  have hdrop : ∀ e ∈ (bE ++ T).dropLast, e.last = false := by
    rw [List.dropLast_append_of_ne_nil _ hT]
    intro e he
    rcases List.mem_append.mp he with h | h
    · obtain ⟨x, _, hx⟩ := List.mem_map.mp h
      rw [← hx]
    · have hTd : T.dropLast =
          [⟨crc32ValueOf (insRegFold b) % 2 ^ 8, false, false⟩,
            ⟨(crc32ValueOf (insRegFold b) >>> 8) % 2 ^ 8, false, false⟩,
            ⟨(crc32ValueOf (insRegFold b) >>> 16) % 2 ^ 8, false, false⟩] := by
        rw [hTdef]; rfl
      rw [hTd] at h
      simp only [List.mem_cons, List.not_mem_nil, or_false] at h
      rcases h with h | h | h <;> subst h <;> rfl
  have hres : chkRefReg crc32Init (bE ++ T) = crc32Check := stream_residue b
  have houts : (chkRunElems (bE ++ T)).2 = chkRef crc32Init [] (bE ++ T) := by
    show (chkExec 1 4 ⟨.IDLE, crc32Reset 1, []⟩ (mkInputs (bE ++ T))).2 = _
    rw [crc32Reset_one]
    exact chkExec_eq_chkRef (bE ++ T) .IDLE crc32Init [] (Or.inl rfl) hdrop
  set u := (bE ++ T).take 4 with hu
  set v := (bE ++ T).drop 4 with hv
  have huv : u ++ v = bE ++ T := List.take_append_drop 4 (bE ++ T)
  have hulen : u.length = 4 := by
    rw [hu, List.length_take, hyslen]
    simp
  have hvlen : v.length = b.length := by
    rw [hv, List.length_drop, hyslen]
    omega
  have hsplit : chkRef crc32Init [] (bE ++ T) =
      chkRef crc32Init [] u ++ chkRef (chkRefReg crc32Init u) u v := by
    rw [← huv, chkRef_append,
      chkRefFifo_fill u [] (by rw [hulen]; simp), List.nil_append]
  have hfillOk : ([] : List Elem).length + u.length ≤ 4 := by
    rw [hulen]; simp
  have hfilterA : (chkRef crc32Init [] u).filter (fun o => o.sourceValid) =
      [] :=
    List.filter_eq_nil_iff.mpr (fun o ho => by
      have h := (chkRef_fill_invalid u crc32Init [] hfillOk o ho).1
      simp [h])
  have hfilterB : (chkRef (chkRefReg crc32Init u) u v).filter
      (fun o => o.sourceValid) = chkRef (chkRefReg crc32Init u) u v :=
    List.filter_eq_self.mpr (fun o ho =>
      chkRef_steady_valid v (chkRefReg crc32Init u) u hulen o ho)
  have hrel : checkerOut (bE ++ T) =
      (chkRef (chkRefReg crc32Init u) u v).map (fun o => o.source) := by
    unfold checkerOut
    rw [houts, hsplit, List.filter_append, hfilterA, hfilterB,
      List.nil_append]
  have hvne : v ≠ [] := by
    intro hc
    rw [hc] at hvlen
    simp at hvlen
    omega
  have hresv : chkRefReg (chkRefReg crc32Init u) v = crc32Check := by
    rw [← chkRefReg_append, huv]
    exact hres
  refine ⟨?_, ?_, ?_, ?_⟩
  · rw [hys, hrel, List.map_map]
    rw [show ((fun e => Elem.data e) ∘ (fun o => ChkOut.source o)) =
      (fun o => o.source.data) from rfl]
    rw [chkRef_steady_data v _ u hulen, huv, hvlen, List.map_append,
      map_data_packet]
    exact List.take_left b _
  · rw [hys, hrel, List.map_map]
    rw [show ((fun e => Elem.last e) ∘ (fun o => ChkOut.source o)) =
      (fun o => o.source.last) from rfl]
    rw [chkRef_last_flags, hv, List.map_drop, List.map_append,
      map_last_packet]
    rw [show T.map (fun e => e.last) = [false, false, false, true] by
      rw [hTdef]; rfl]
    rw [show List.replicate b.length false ++ [false, false, false, true] =
        List.replicate (b.length + 3) false ++ [true] by
      rw [show [false, false, false, true] =
          List.replicate 3 false ++ [true] from rfl,
        ← List.append_assoc, ← List.replicate_add]]
    rw [List.drop_append_of_le_length (by rw [List.length_replicate]; omega),
      List.drop_replicate, show b.length + 3 - 4 = b.length - 1 by omega]
  · rw [hys, hrel]
    rw [getLastD_map _ _ (by
      cases hvv : v with
      | nil => exact absurd hvv hvne
      | cons a t => exact chkRef_ne_nil _ _ _ _)]
    refine chkRef_last_error v _ u hvne hresv ?_
    have h2 : v.getLastD default = T.getLastD default := by
      rw [← getLastD_append_right u hvne, huv, getLastD_append_right bE hT]
    rw [h2, hTdef]
    rfl
  · intro p hp
    unfold checkerPulses at hp
    rw [hys, houts] at hp
    obtain ⟨o, ho, hop⟩ := List.mem_map.mp hp
    rw [← hop]
    exact chkRef_no_pulse (bE ++ T) crc32Init [] hdrop hres o ho

theorem C1_round_trip_witness :
    ([5] : List Nat) ≠ [] ∧
    ((checkerOut (inserterOut [5])).map (fun e => e.data) = [5] ∧
      (checkerOut (inserterOut [5])).map (fun e => e.last) =
        List.replicate (([5] : List Nat).length - 1) false ++ [true] ∧
      ((checkerOut (inserterOut [5])).getLastD default).error = false ∧
      (∀ p ∈ checkerPulses (inserterOut [5]), p = false)) :=
  ⟨by decide, C1_round_trip [5] (by decide)⟩

/-! ### Concrete evaluations used by the counterexamples and C3 -/

theorem insRegFold_two : insRegFold [1, 2] = 0xB6BDCC92 := by
  unfold insRegFold
  rw [foldl_laneNext0_nat _ crc32Init (by decide)]
  decide

theorem inserterOut_two :
    inserterOut [1, 2] =
      [⟨0x01, false, false⟩,
      ⟨0x02, false, false⟩,
      ⟨0x92, false, false⟩,
      ⟨0x42, false, false⟩,
      ⟨0xCC, false, false⟩,
      ⟨0xB6, true, false⟩] := by
  rw [inserterOut_eq [1, 2] (by simp), insRegFold_two]
  decide

theorem chkRef_two :
    chkRef crc32Init []
      [⟨0x01, false, false⟩,
      ⟨0x02, false, false⟩,
      ⟨0x92, false, false⟩,
      ⟨0x42, false, false⟩,
      ⟨0xCC, false, false⟩,
      ⟨0xB6, true, false⟩] =
      [⟨true, false, ⟨0x00, false, true⟩, false⟩,
      ⟨true, false, ⟨0x01, false, true⟩, false⟩,
      ⟨true, false, ⟨0x01, false, true⟩, false⟩,
      ⟨true, false, ⟨0x01, false, true⟩, false⟩,
      ⟨true, true, ⟨0x01, false, true⟩, false⟩,
      ⟨true, true, ⟨0x02, true, false⟩, false⟩] := by
  have hL1 : laneNext 0 crc32Init 0x01 = 0x27045F5A := by
    rw [laneNext0_nat _ _ (by decide)]
    decide
  have hL2 : laneNext 0 0x27045F5A 0x02 = 0xB6BDCC92 := by
    rw [laneNext0_nat _ _ (by decide)]
    decide
  have hL3 : laneNext 0 0xB6BDCC92 0x92 = 0x0C3BD2B4 := by
    rw [laneNext0_nat _ _ (by decide)]
    decide
  have hL4 : laneNext 0 0x0C3BD2B4 0x42 = 0x33DA647D := by
    rw [laneNext0_nat _ _ (by decide)]
    decide
  have hL5 : laneNext 0 0x33DA647D 0xCC = 0xDA647D00 := by
    rw [laneNext0_nat _ _ (by decide)]
    decide
  have hL6 : laneNext 0 0xDA647D00 0xB6 = 0xC704DD7B := by
    rw [laneNext0_nat _ _ (by decide)]
    decide
  simp [chkRef_cons, chkRef_nil, chkRefOut, crc32Check, elem_default,
    hL1, hL2, hL3, hL4, hL5, hL6]

theorem checkerOut_two :
    checkerOut (inserterOut [1, 2]) =
      [⟨0x01, false, true⟩, ⟨0x02, true, false⟩] := by
  rw [inserterOut_two]
  unfold checkerOut chkRunElems
  rw [crc32Reset_one, chkExec_eq_chkRef _ .IDLE crc32Init []
    (Or.inl rfl) (by decide), chkRef_two]
  decide

theorem checkerPulses_two :
    checkerPulses (inserterOut [1, 2]) = List.replicate 6 false := by
  rw [inserterOut_two]
  unfold checkerPulses chkRunElems
  rw [crc32Reset_one, chkExec_eq_chkRef _ .IDLE crc32Init []
    (Or.inl rfl) (by decide), chkRef_two]
  decide

theorem insRegFold_onetwothreefour : insRegFold [1, 2, 3, 4] = 0x4C20C392 := by
  unfold insRegFold
  rw [foldl_laneNext0_nat _ crc32Init (by decide)]
  decide

theorem inserterOut_onetwothreefour :
    inserterOut [1, 2, 3, 4] =
      [⟨0x01, false, false⟩,
      ⟨0x02, false, false⟩,
      ⟨0x03, false, false⟩,
      ⟨0x04, false, false⟩,
      ⟨0xCD, false, false⟩,
      ⟨0xFB, false, false⟩,
      ⟨0x3C, false, false⟩,
      ⟨0xB6, true, false⟩] := by
  rw [inserterOut_eq [1, 2, 3, 4] (by simp), insRegFold_onetwothreefour]
  decide

theorem chkRef_onetwothreefour :
    chkRef crc32Init []
      [⟨0x01, false, false⟩,
      ⟨0x02, false, false⟩,
      ⟨0x03, false, false⟩,
      ⟨0x04, false, false⟩,
      ⟨0xCD, false, false⟩,
      ⟨0xFB, false, false⟩,
      ⟨0x3C, false, false⟩,
      ⟨0xB6, true, false⟩] =
      [⟨true, false, ⟨0x00, false, true⟩, false⟩,
      ⟨true, false, ⟨0x01, false, true⟩, false⟩,
      ⟨true, false, ⟨0x01, false, true⟩, false⟩,
      ⟨true, false, ⟨0x01, false, true⟩, false⟩,
      ⟨true, true, ⟨0x01, false, true⟩, false⟩,
      ⟨true, true, ⟨0x02, false, true⟩, false⟩,
      ⟨true, true, ⟨0x03, false, true⟩, false⟩,
      ⟨true, true, ⟨0x04, true, false⟩, false⟩] := by
  have hL1 : laneNext 0 crc32Init 0x01 = 0x27045F5A := by
    rw [laneNext0_nat _ _ (by decide)]
    decide
  have hL2 : laneNext 0 0x27045F5A 0x02 = 0xB6BDCC92 := by
    rw [laneNext0_nat _ _ (by decide)]
    decide
  have hL3 : laneNext 0 0xB6BDCC92 0x03 = 0x47FEC255 := by
    rw [laneNext0_nat _ _ (by decide)]
    decide
  have hL4 : laneNext 0 0x47FEC255 0x04 = 0x4C20C392 := by
    rw [laneNext0_nat _ _ (by decide)]
    decide
  have hL5 : laneNext 0 0x4C20C392 0xCD = 0x9134D2B4 := by
    rw [laneNext0_nat _ _ (by decide)]
    decide
  have hL6 : laneNext 0 0x9134D2B4 0xFB = 0x3CDA647D := by
    rw [laneNext0_nat _ _ (by decide)]
    decide
  have hL7 : laneNext 0 0x3CDA647D 0x3C = 0xDA647D00 := by
    rw [laneNext0_nat _ _ (by decide)]
    decide
  have hL8 : laneNext 0 0xDA647D00 0xB6 = 0xC704DD7B := by
    rw [laneNext0_nat _ _ (by decide)]
    decide
  simp [chkRef_cons, chkRef_nil, chkRefOut, crc32Check, elem_default,
    hL1, hL2, hL3, hL4, hL5, hL6, hL7, hL8]

theorem checkerOut_onetwothreefour :
    checkerOut (inserterOut [1, 2, 3, 4]) =
      [⟨0x01, false, true⟩, ⟨0x02, false, true⟩, ⟨0x03, false, true⟩, ⟨0x04, true, false⟩] := by
  rw [inserterOut_onetwothreefour]
  unfold checkerOut chkRunElems
  rw [crc32Reset_one, chkExec_eq_chkRef _ .IDLE crc32Init []
    (Or.inl rfl) (by decide), chkRef_onetwothreefour]
  decide

theorem checkerPulses_onetwothreefour :
    checkerPulses (inserterOut [1, 2, 3, 4]) = List.replicate 8 false := by
  rw [inserterOut_onetwothreefour]
  unfold checkerPulses chkRunElems
  rw [crc32Reset_one, chkExec_eq_chkRef _ .IDLE crc32Init []
    (Or.inl rfl) (by decide), chkRef_onetwothreefour]
  decide

theorem insRegFold_zero : insRegFold [0] = 0x4E08BFB4 := by
  unfold insRegFold
  rw [foldl_laneNext0_nat _ crc32Init (by decide)]
  decide

theorem inserterOut_zero :
    inserterOut [0] =
      [⟨0x00, false, false⟩,
      ⟨0x8D, false, false⟩,
      ⟨0xEF, false, false⟩,
      ⟨0x02, false, false⟩,
      ⟨0xD2, true, false⟩] := by
  rw [inserterOut_eq [0] (by simp), insRegFold_zero]
  decide

theorem chkRef_zero :
    chkRef crc32Init []
      [⟨0x00, false, false⟩,
      ⟨0x8D, false, false⟩,
      ⟨0xEF, false, false⟩,
      ⟨0x02, false, false⟩,
      ⟨0xD2, true, false⟩] =
      [⟨true, false, ⟨0x00, false, true⟩, false⟩,
      ⟨true, false, ⟨0x00, false, true⟩, false⟩,
      ⟨true, false, ⟨0x00, false, true⟩, false⟩,
      ⟨true, false, ⟨0x00, false, true⟩, false⟩,
      ⟨true, true, ⟨0x00, true, false⟩, false⟩] := by
  have hL1 : laneNext 0 crc32Init 0x00 = 0x4E08BFB4 := by
    rw [laneNext0_nat _ _ (by decide)]
    decide
  have hL2 : laneNext 0 0x4E08BFB4 0x8D = 0xB948F4B4 := by
    rw [laneNext0_nat _ _ (by decide)]
    decide
  have hL3 : laneNext 0 0xB948F4B4 0xEF = 0x40FC647D := by
    rw [laneNext0_nat _ _ (by decide)]
    decide
  have hL4 : laneNext 0 0x40FC647D 0x02 = 0xFC647D00 := by
    rw [laneNext0_nat _ _ (by decide)]
    decide
  have hL5 : laneNext 0 0xFC647D00 0xD2 = 0xC704DD7B := by
    rw [laneNext0_nat _ _ (by decide)]
    decide
  simp [chkRef_cons, chkRef_nil, chkRefOut, crc32Check, elem_default,
    hL1, hL2, hL3, hL4, hL5]

theorem checkerOut_zero :
    checkerOut (inserterOut [0]) =
      [⟨0x00, true, false⟩] := by
  rw [inserterOut_zero]
  unfold checkerOut chkRunElems
  rw [crc32Reset_one, chkExec_eq_chkRef _ .IDLE crc32Init []
    (Or.inl rfl) (by decide), chkRef_zero]
  decide

theorem checkerPulses_zero :
    checkerPulses (inserterOut [0]) = List.replicate 5 false := by
  rw [inserterOut_zero]
  unfold checkerPulses chkRunElems
  rw [crc32Reset_one, chkExec_eq_chkRef _ .IDLE crc32Init []
    (Or.inl rfl) (by decide), chkRef_zero]
  decide


/-- C1, counterexample to the claim as stated: in the round trip of the
packet `[1, 2]`, the first released element (data 1, not the final one)
carries `error = true`, because the checker drives the `error` field from
the live residue comparison on every cycle, not only on `last`. -/
theorem C1_error_counterexample :
    (checkerOut (inserterOut [1, 2])).map (fun e => (e.data, e.error)) =
      [(1, true), (2, false)] := by
  rw [checkerOut_two]
  decide

/-! ## Claim C3 -/

/-- C3, counterexample to the claim as stated: the inserter appends the
bytes 0xCD, 0xFB, 0x3C, 0xB6 in that order (least-significant byte of the
CRC value 0xB63CFBCD first), not 0xB6, 0x3C, 0xFB, 0xCD. -/
theorem C3_counterexample :
    (inserterOut [1, 2, 3, 4]).map (fun e => e.data) =
      [1, 2, 3, 4, 0xCD, 0xFB, 0x3C, 0xB6] ∧
    ([0xCD, 0xFB, 0x3C, 0xB6] : List Nat) ≠ [0xB6, 0x3C, 0xFB, 0xCD] := by
  constructor
  · rw [inserterOut_onetwothreefour]
    decide
  · decide

/-- C3 (amended): with `dw = 8`, the inserter appends to `[1,2,3,4]`
exactly the bytes 0xCD, 0xFB, 0x3C, 0xB6 in that order (the bytes of the
CRC 0xB63CFBCD, least-significant first) with `last` only on the final
one; the checker fed the resulting 8-byte stream emits `[1,2,3,4]` with
`last` and `error = false` on the final element, `error = true` on the
three earlier elements (live residue comparison), and never fires the
error pulse. -/
theorem C3_concrete_scenario :
    inserterOut [1, 2, 3, 4] =
      [⟨1, false, false⟩, ⟨2, false, false⟩, ⟨3, false, false⟩,
        ⟨4, false, false⟩, ⟨0xCD, false, false⟩, ⟨0xFB, false, false⟩,
        ⟨0x3C, false, false⟩, ⟨0xB6, true, false⟩] ∧
    checkerOut (inserterOut [1, 2, 3, 4]) =
      [⟨1, false, true⟩, ⟨2, false, true⟩, ⟨3, false, true⟩,
        ⟨4, true, false⟩] ∧
    checkerPulses (inserterOut [1, 2, 3, 4]) = List.replicate 8 false := by
  refine ⟨?_, ?_, ?_⟩
  · rw [inserterOut_onetwothreefour]
  · rw [checkerOut_onetwothreefour]
  · exact checkerPulses_onetwothreefour

/-! ## Claim C6 -/

/-- C6: in the COPY state the inserter forwards the upstream element to
the downstream source with the same data and `last` forced to false,
couples the two ready/valid handshakes, enables the CRC unit exactly when
upstream valid and downstream ready are both asserted, and moves to the
append state exactly when the upstream's `last` element is accepted. -/
theorem C6_copy_forwarding (dwB ratio : Nat) (st : InsState)
    (inp : StreamIn) (h : st.fsm = .COPY) :
    (insStep dwB ratio st inp).2.sourceValid = inp.valid ∧
    (insStep dwB ratio st inp).2.source.data = inp.elem.data ∧
    (insStep dwB ratio st inp).2.source.last = false ∧
    (insStep dwB ratio st inp).2.sinkReady = inp.ready ∧
    (insStep dwB ratio st inp).1.regs =
      (if inp.valid && inp.ready then crc32Update dwB st.regs inp.elem.data
        else st.regs) ∧
    ((insStep dwB ratio st inp).1.fsm = .CRC ↔
      (inp.valid && inp.elem.last && inp.ready) = true) := by
  obtain ⟨fsm, regs, cnt⟩ := st
  subst h
  refine ⟨rfl, rfl, rfl, rfl, rfl, ?_⟩
  cases hc : (inp.valid && inp.elem.last && inp.ready) <;>
    simp [insStep, hc]

theorem C6_copy_forwarding_witness :
    (InsState.mk .COPY [0] 0).fsm = .COPY ∧
    ((insStep 1 4 ⟨.COPY, [0], 0⟩ ⟨true, ⟨7, false, false⟩, true⟩).2.sourceValid =
        true ∧
      (insStep 1 4 ⟨.COPY, [0], 0⟩ ⟨true, ⟨7, false, false⟩, true⟩).2.source.data =
        (Elem.mk 7 false false).data ∧
      (insStep 1 4 ⟨.COPY, [0], 0⟩ ⟨true, ⟨7, false, false⟩, true⟩).2.source.last =
        false ∧
      (insStep 1 4 ⟨.COPY, [0], 0⟩ ⟨true, ⟨7, false, false⟩, true⟩).2.sinkReady =
        true ∧
      (insStep 1 4 ⟨.COPY, [0], 0⟩ ⟨true, ⟨7, false, false⟩, true⟩).1.regs =
        (if true && true then crc32Update 1 [0] (Elem.mk 7 false false).data
          else [0]) ∧
      ((insStep 1 4 ⟨.COPY, [0], 0⟩ ⟨true, ⟨7, false, false⟩, true⟩).1.fsm =
          .CRC ↔ (true && (Elem.mk 7 false false).last && true) = true)) :=
  ⟨rfl, C6_copy_forwarding 1 4 ⟨.COPY, [0], 0⟩ ⟨true, ⟨7, false, false⟩, true⟩ rfl⟩

/-- C7, counterexample to the claim as stated: in the run for the packet
`[0]` (register 0x4E08BFB4, value 0xD202EF8D) the first appended stream
element carries the least-significant byte 0x8D of the value, which is
not the most-significant chunk 0xD2 the claim prescribes. -/
theorem C7_counterexample :
    ((inserterOut [0]).getD 1 default).data = 0x8D ∧
    crc32ValueOf (insRegFold [0]) >>> 24 = 0xD2 ∧
    (0x8D : Nat) ≠ 0xD2 := by
  refine ⟨?_, ?_, by decide⟩
  · rw [inserterOut_zero]
    decide
  · rw [insRegFold_zero]
    decide

/-! ## Claim C7 -/

theorem chooserN_ge (ratio : Nat) : ratio ≤ chooserN ratio := by
  unfold chooserN bitsFor
  rcases eq_or_ne (ratio - 1) 0 with h | h
  · rw [h]
    simp
    omega
  · rw [if_neg h]
    have := @Nat.lt_log2_self (ratio - 1)
    omega

/-- With the downstream not ready, the CRC-append state holds: the state
is unchanged and the source output stays asserted. -/
theorem insStep_crc_hold (dwB ratio : Nat) (st : InsState) (inp : StreamIn)
    (hfsm : st.fsm = .CRC) (hnr : inp.ready = false) :
    (insStep dwB ratio st inp).1 = st ∧
    (insStep dwB ratio st inp).2.sourceValid = true ∧
    (insStep dwB ratio st inp).2.sinkReady = false := by
  obtain ⟨fsm, regs, cnt⟩ := st
  subst hfsm
  by_cases hr : ratio ≤ 1 <;> simp [insStep, hr, hnr]

theorem insRun_idle_quiet (dwB ratio : Nat) :
    ∀ (fuel : Nat) (regs : List Nat) (cnt : Nat),
      insRun dwB ratio fuel ⟨.IDLE, regs, cnt⟩ [] = [] := by
  intro fuel
  induction fuel with
  | zero => intro regs cnt; rfl
  | succ fuel ih =>
    intro regs cnt
    simp only [insRun, insStep]
    simp [ih]

theorem insStep_crc_step (dwB ratio : Nat) (hr : 2 ≤ ratio)
    (regs : List Nat) (c : Nat) (inp : StreamIn) (hrdy : inp.ready = true) :
    insStep dwB ratio ⟨.CRC, regs, c⟩ inp =
      (⟨if (c == 0) then .IDLE else .CRC, regs,
          if (c == 0) then c else c - 1⟩,
        ⟨false, true,
          ⟨(crc32Value dwB regs 0 >>>
              ((chooserN ratio - 1 - c) * (8 * dwB))) % 2 ^ (8 * dwB),
            c == 0, false⟩⟩) := by
  simp only [insStep]
  rw [if_neg (by omega : ¬ ratio ≤ 1)]
  cases hc : (c == 0) <;> simp [hc, hrdy]

theorem insRun_crc_cons (dwB ratio : Nat) (hr : 2 ≤ ratio) (fuel c : Nat)
    (regs : List Nat) :
    insRun dwB ratio (fuel + 1) ⟨.CRC, regs, c⟩ [] =
      ⟨(crc32Value dwB regs 0 >>>
          ((chooserN ratio - 1 - c) * (8 * dwB))) % 2 ^ (8 * dwB),
        c == 0, false⟩ ::
        insRun dwB ratio fuel
          ⟨if (c == 0) then .IDLE else .CRC, regs,
            if (c == 0) then c else c - 1⟩ [] := by
  simp only [insRun]
  rw [insStep_crc_step dwB ratio hr regs c _ rfl]
  simp

theorem insRun_crc_emit (dwB ratio : Nat) (hr : 2 ≤ ratio) :
    ∀ (c : Nat), c < ratio → ∀ (regs : List Nat) (fuel : Nat),
      insRun dwB ratio (fuel + (c + 1)) ⟨.CRC, regs, c⟩ [] =
        (List.range (c + 1)).map (fun i =>
          (⟨(crc32Value dwB regs 0 >>>
              ((chooserN ratio - 1 - c + i) * (8 * dwB))) % 2 ^ (8 * dwB),
            i == c, false⟩ : Elem)) := by
  intro c
  induction c with
  | zero =>
    intro _ regs fuel
    rw [show fuel + (0 + 1) = fuel + 1 from rfl,
      insRun_crc_cons dwB ratio hr]
    simp [insRun_idle_quiet, List.range_succ]
  | succ c ih =>
    intro hc regs fuel
    rw [show fuel + (c + 1 + 1) = (fuel + (c + 1)) + 1 by omega,
      insRun_crc_cons dwB ratio hr]
    have h0 : ((c + 1 == 0)) = false := by simp
    rw [h0]
    simp only [Bool.false_eq_true, if_false, Nat.add_sub_cancel]
    rw [ih (by omega) regs fuel]
    conv_rhs => rw [List.range_succ_eq_map, List.map_cons, List.map_map]
    have hle : c + 1 ≤ chooserN ratio - 1 := by
      have := chooserN_ge ratio
      omega
    refine congrArg₂ List.cons ?_ ?_
    · simp
    · apply List.map_congr_left
      intro i hi
      have hi2 : i < c + 1 := List.mem_range.mp hi
      have harith : chooserN ratio - 1 - c + i =
          chooserN ratio - 1 - (c + 1) + Nat.succ i := by omega
      have hbeq : ((Nat.succ i == c + 1)) = ((i == c)) := by
        cases hb : (i == c)
        · have hne : i ≠ c := by simpa using hb
          simp only [beq_eq_false_iff_ne, ne_eq, Nat.succ_eq_add_one]
          omega
        · have heq : i = c := by simpa using hb
          subst heq
          simp
      simp only [Function.comp_apply, harith, hbeq]

/-- C7 (amended): in its append state the 8·dwB-bit inserter emits the
32-bit CRC value as exactly `ratio` stream elements, LEAST-significant
`dw`-bit chunk of `value` first (the claim said most-significant first),
`last` asserted only on the final chunk; a chunk is held unchanged while
the downstream is not ready; after the final chunk is accepted the
machine returns to IDLE; and when `ratio = 1` (`dw = 32`) the emission is
a single element carrying the whole value. -/
theorem C7_append_emission (dwB ratio : Nat) (regs : List Nat) (c : Nat)
    (st : InsState) (inp : StreamIn) :
    (2 ≤ ratio → chooserN ratio = ratio →
      insRun dwB ratio (ratio + 1) ⟨.CRC, regs, ratio - 1⟩ [] =
        (List.range ratio).map (fun i =>
          (⟨(crc32Value dwB regs 0 >>> (i * (8 * dwB))) % 2 ^ (8 * dwB),
            i == ratio - 1, false⟩ : Elem))) ∧
    (st.fsm = .CRC → inp.ready = false →
      (insStep dwB ratio st inp).1 = st ∧
      (insStep dwB ratio st inp).2.sourceValid = true) ∧
    (2 ≤ ratio → inp.ready = true →
      (insStep dwB ratio ⟨.CRC, regs, 0⟩ inp).1.fsm = .IDLE ∧
      (insStep dwB ratio ⟨.CRC, regs, 0⟩ inp).2.source.last = true) ∧
    (ratio = 1 → inp.ready = true →
      insStep dwB ratio ⟨.CRC, regs, c⟩ inp =
        (⟨.IDLE, regs, c⟩,
          ⟨false, true, ⟨crc32Value dwB regs 0, true, false⟩⟩)) := by
  refine ⟨?_, ?_, ?_, ?_⟩
  · intro h2 hn
    have hlt : ratio - 1 < ratio := by omega
    have := insRun_crc_emit dwB ratio h2 (ratio - 1) hlt regs 1
    rw [show (1 : Nat) + (ratio - 1 + 1) = ratio + 1 by omega] at this
    rw [show ratio - 1 + 1 = ratio by omega] at this
    rw [this]
    apply List.map_congr_left
    intro i hi
    have hi2 : i < ratio := List.mem_range.mp hi
    rw [show chooserN ratio - 1 - (ratio - 1) + i = i by rw [hn]; omega]
  · intro hfsm hnr
    have h := insStep_crc_hold dwB ratio st inp hfsm hnr
    exact ⟨h.1, h.2.1⟩
  · intro h2 hrdy
    rw [insStep_crc_step dwB ratio h2 regs 0 inp hrdy]
    simp
  · intro h1 hrdy
    subst h1
    simp [insStep, hrdy]

theorem C7_append_emission_witness :
    (insRun 1 4 (4 + 1) ⟨.CRC, [0], 4 - 1⟩ [] =
      (List.range 4).map (fun i =>
        (⟨(crc32Value 1 [0] 0 >>> (i * (8 * 1))) % 2 ^ (8 * 1),
          i == 4 - 1, false⟩ : Elem))) ∧
    ((insStep 1 4 ⟨.CRC, [0], 2⟩ ⟨false, ⟨0, false, false⟩, false⟩).1 =
        ⟨.CRC, [0], 2⟩ ∧
      (insStep 1 4 ⟨.CRC, [0], 2⟩
          ⟨false, ⟨0, false, false⟩, false⟩).2.sourceValid = true) ∧
    ((insStep 1 4 ⟨.CRC, [0], 0⟩ ⟨false, ⟨0, false, false⟩, true⟩).1.fsm =
        .IDLE ∧
      (insStep 1 4 ⟨.CRC, [0], 0⟩
          ⟨false, ⟨0, false, false⟩, true⟩).2.source.last = true) ∧
    (insStep 1 1 ⟨.CRC, [5], 3⟩ ⟨false, ⟨0, false, false⟩, true⟩ =
      (⟨.IDLE, [5], 3⟩, ⟨false, true, ⟨crc32Value 1 [5] 0, true, false⟩⟩)) := by
  have h1 := C7_append_emission 1 4 [0] 2 ⟨.CRC, [0], 2⟩
    ⟨false, ⟨0, false, false⟩, false⟩
  have h2 := C7_append_emission 1 4 [0] 0 ⟨.CRC, [0], 0⟩
    ⟨false, ⟨0, false, false⟩, true⟩
  have h3 := C7_append_emission 1 1 [5] 3 ⟨.CRC, [5], 3⟩
    ⟨false, ⟨0, false, false⟩, true⟩
  exact ⟨h1.1 (by omega) chooserN_four, h1.2.1 rfl rfl,
    h2.2.2.1 (by omega) rfl, h3.2.2.2 rfl rfl⟩

/-! ## Claim C8 -/

theorem chkStep_fifo_bound (dwB ratio : Nat) (hr : 1 ≤ ratio)
    (st : ChkState) (inp : StreamIn) (h : st.fifo.length ≤ ratio) :
    (chkStep dwB ratio st inp).1.fifo.length ≤ ratio := by
  obtain ⟨fsm, regs, fifo⟩ := st
  obtain ⟨v, e, rd⟩ := inp
  cases fsm <;> cases hv : v <;> cases hrd : rd <;>
    by_cases hfull : fifo.length = ratio <;>
      simp_all [chkStep] <;> omega

theorem chkStates_fifo_bound (dwB ratio : Nat) (hr : 1 ≤ ratio) :
    ∀ (inps : List StreamIn) (st : ChkState), st.fifo.length ≤ ratio →
      ∀ s ∈ chkStates dwB ratio st inps, s.fifo.length ≤ ratio := by
  intro inps
  induction inps with
  | nil =>
    intro st h s hs
    simp [chkStates] at hs
    subst hs
    exact h
  | cons i rest ih =>
    intro st h s hs
    simp only [chkStates, List.mem_cons] at hs
    rcases hs with hs | hs
    · subst hs; exact h
    · exact ih _ (chkStep_fifo_bound dwB ratio hr st i h) s hs

/-- C8: along every input trace from the power-on state the checker's
staging FIFO holds at most `ratio` elements — within its `ratio + 1`
capacity — and an element is released downstream (`source.valid`) only in
a cycle where the FIFO already holds its full complement of `ratio`
elements, so the whole possible CRC-trailer window behind it has been
observed by the CRC unit. -/
theorem C8_fifo_capacity (dwB ratio : Nat) (hr : 1 ≤ ratio)
    (inps : List StreamIn) :
    (∀ s ∈ chkStates dwB ratio (chkInit dwB) inps,
      s.fifo.length ≤ ratio) ∧
    ∀ (st : ChkState) (inp : StreamIn),
      (chkStep dwB ratio st inp).2.sourceValid = true →
      st.fifo.length = ratio := by
  constructor
  · exact chkStates_fifo_bound dwB ratio hr inps (chkInit dwB)
      (by simp [chkInit])
  · intro st inp h
    obtain ⟨fsm, regs, fifo⟩ := st
    simp [chkStep] at h
    exact h.2

theorem C8_fifo_capacity_witness :
    chkInit 1 ∈ chkStates 1 4 (chkInit 1) [] ∧
    (chkInit 1).fifo.length ≤ 4 ∧
    (chkStep 1 4
        ⟨.COPY, [0], [⟨1, false, false⟩, ⟨2, false, false⟩,
          ⟨3, false, false⟩, ⟨4, false, false⟩]⟩
        ⟨true, ⟨5, false, false⟩, true⟩).2.sourceValid = true ∧
    (⟨.COPY, [0], [⟨1, false, false⟩, ⟨2, false, false⟩, ⟨3, false, false⟩,
        ⟨4, false, false⟩]⟩ : ChkState).fifo.length = 4 := by
  have h := C8_fifo_capacity 1 4 (by decide) []
  refine ⟨by simp [chkStates], h.1 _ (by simp [chkStates]), ?_, ?_⟩
  · decide
  · exact h.2 _ ⟨true, ⟨5, false, false⟩, true⟩ (by decide)

/-! ## Claim C9 -/

theorem chkRef_pulse_dropLast (xs : List Elem) :
    ∀ (r : Nat) (fifo : List Elem),
      (∀ e ∈ xs.dropLast, e.last = false) →
      ∀ o ∈ (chkRef r fifo xs).dropLast, o.errorPulse = false := by
  induction xs with
  | nil => intro r fifo _ o ho; simp [chkRef_nil] at ho
  | cons x rest ih =>
    intro r fifo hlast o ho
    cases rest with
    | nil =>
      rw [chkRef_cons, chkRef_nil] at ho
      simp at ho
    | cons y t =>
      rw [chkRef_cons,
        List.dropLast_cons_of_ne_nil (chkRef_ne_nil _ _ _ _)] at ho
      rcases List.mem_cons.mp ho with ho | ho
      · subst ho
        have hx : x.last = false := by
          apply hlast
          simp [List.dropLast_cons_of_ne_nil]
        simp [chkRefOut, hx]
      · refine ih (laneNext 0 r x.data) _ ?_ o ho
        intro e he
        apply hlast
        rw [List.dropLast_cons_of_ne_nil (by simp)]
        exact List.mem_cons_of_mem x he

theorem chkRef_last_pulse (xs : List Elem) :
    ∀ (r : Nat) (fifo : List Elem), xs ≠ [] → fifo.length = 4 →
      ((chkRef r fifo xs).getLastD default).errorPulse =
        ((xs.getLastD default).last && (chkRefReg r xs != crc32Check)) := by
  induction xs with
  | nil => intro r fifo h; exact absurd rfl h
  | cons x rest ih =>
    intro r fifo _ hlen
    cases rest with
    | nil =>
      have hfull : (fifo.length == 4) = true := by simp [hlen]
      simp [chkRef_cons, chkRef_nil, chkRefOut, chkRefReg, hfull]
    | cons y t =>
      have hfull : (fifo.length == 4) = true := by simp [hlen]
      rw [chkRef_cons, hfull]
      simp only [if_true]
      rw [getLastD_cons_of_ne_nil _ _ (chkRef_ne_nil _ _ _ _),
        getLastD_cons_of_ne_nil x (y :: t) (by simp), chkRefReg_cons]
      exact ih (laneNext 0 r x.data) (fifo.tail ++ [x]) (by simp)
        (by simp [List.length_tail, hlen])

/-- C9 counterexample: the checker's error output is NOT a one-shot
per-packet pulse coincident with a release.  Feed four `0x00` bytes and
then hold the packet's `last` byte at the sink for two cycles with the
downstream not ready (`source.ready = 0`): `source.valid & source.last &
crc.error` is then true on BOTH stalled cycles, so the pulse fires twice
for a single packet while no element is accepted downstream. -/
theorem C9_counterexample :
    ((chkExec 1 4 ⟨.IDLE, crc32Reset 1, []⟩
        [⟨true, ⟨0, false, false⟩, true⟩, ⟨true, ⟨0, false, false⟩, true⟩,
          ⟨true, ⟨0, false, false⟩, true⟩, ⟨true, ⟨0, false, false⟩, true⟩,
          ⟨true, ⟨0, true, false⟩, false⟩,
          ⟨true, ⟨0, true, false⟩, false⟩]).2.map (fun o => o.errorPulse) =
      [false, false, false, false, true, true]) ∧
    ((chkExec 1 4 ⟨.IDLE, crc32Reset 1, []⟩
        [⟨true, ⟨0, false, false⟩, true⟩, ⟨true, ⟨0, false, false⟩, true⟩,
          ⟨true, ⟨0, false, false⟩, true⟩, ⟨true, ⟨0, false, false⟩, true⟩,
          ⟨true, ⟨0, true, false⟩, false⟩,
          ⟨true, ⟨0, true, false⟩, false⟩]).2.map (fun o => o.sourceValid) =
      [false, false, false, false, true, true]) := by
  have h1 : laneNext 0 crc32Init 0 = 0x4E08BFB4 := by
    rw [laneNext0_nat _ _ (by decide)]; decide
  have h2 : laneNext 0 0x4E08BFB4 0 = 0x00B7647D := by
    rw [laneNext0_nat _ _ (by decide)]; decide
  have h3 : laneNext 0 0x00B7647D 0 = 0xB7647D00 := by
    rw [laneNext0_nat _ _ (by decide)]; decide
  have h4 : laneNext 0 0xB7647D00 0 = 0xC704DD7B := by
    rw [laneNext0_nat _ _ (by decide)]; decide
  have h5 : laneNext 0 0xC704DD7B 0 = 0x4710BB9C := by
    rw [laneNext0_nat _ _ (by decide)]; decide
  constructor <;>
    simp [chkExec, chkExec_cons, chkStep, crc32Reset_one, crc32Error_one,
      crc32Update_one, crc32Check, h1, h2, h3, h4, h5]

/-- C9 (amended): every cycle the released element's `error` field is the
OR of the upstream-signaled error and the CRC residue-mismatch flag
(both evaluated combinationally on the element currently at the sink),
and the pulse output equals `source.valid && sink.last && crc.error` —
it is not latched.  Under an always-valid, always-ready stream whose
non-final elements have `last = false`, every cycle but the final one has
`pulse = false`, and with the staging FIFO already full the final cycle
pulses exactly when the packet's accumulated register misses the
residue constant. -/
theorem C9_error_annotation (dwB ratio : Nat) (st : ChkState)
    (inp : StreamIn) (xs : List Elem) (r : Nat) (fifo : List Elem) :
    ((chkStep dwB ratio st inp).2.source.error =
      (inp.elem.error || crc32Error dwB st.regs inp.elem.data 0)) ∧
    ((chkStep dwB ratio st inp).2.errorPulse =
      ((inp.valid && (st.fifo.length == ratio)) && inp.elem.last &&
        crc32Error dwB st.regs inp.elem.data 0)) ∧
    ((∀ e ∈ xs.dropLast, e.last = false) →
      ∀ o ∈ (chkRef r fifo xs).dropLast, o.errorPulse = false) ∧
    (xs ≠ [] → fifo.length = 4 →
      ((chkRef r fifo xs).getLastD default).errorPulse =
        ((xs.getLastD default).last && (chkRefReg r xs != crc32Check))) := by
  refine ⟨rfl, rfl, chkRef_pulse_dropLast xs r fifo,
    chkRef_last_pulse xs r fifo⟩

theorem C9_error_annotation_witness :
    ((chkStep 1 4 ⟨.COPY, [0], []⟩
        ⟨true, ⟨7, false, true⟩, true⟩).2.source.error =
      (true || crc32Error 1 [0] 7 0)) ∧
    ((chkStep 1 4 ⟨.COPY, [0], []⟩
        ⟨true, ⟨7, false, true⟩, true⟩).2.errorPulse =
      ((true && (([] : List Elem).length == 4)) && false &&
        crc32Error 1 [0] 7 0)) ∧
    ((chkRefOut 0 [⟨0, false, false⟩, ⟨0, false, false⟩, ⟨0, false, false⟩,
        ⟨0, false, false⟩] ⟨1, false, false⟩).errorPulse = false) ∧
    (((chkRef 0 [⟨0, false, false⟩, ⟨0, false, false⟩, ⟨0, false, false⟩,
          ⟨0, false, false⟩] [⟨1, false, false⟩, ⟨2, true, false⟩]).getLastD
        default).errorPulse =
      ((([⟨1, false, false⟩, ⟨2, true, false⟩] : List Elem).getLastD
          default).last &&
        (chkRefReg 0 [⟨1, false, false⟩, ⟨2, true, false⟩] !=
          crc32Check))) := by
  have h := C9_error_annotation 1 4 ⟨.COPY, [0], []⟩
    ⟨true, ⟨7, false, true⟩, true⟩ [⟨1, false, false⟩, ⟨2, true, false⟩] 0
    [⟨0, false, false⟩, ⟨0, false, false⟩, ⟨0, false, false⟩,
      ⟨0, false, false⟩]
  refine ⟨h.1, h.2.1, ?_, h.2.2.2 (by simp) (by simp)⟩
  exact h.2.2.1 (by decide) _
    (by simp [chkRef_cons, chkRef_nil, List.dropLast])

/-! ## Claim C10 -/

theorem chkStep_fifo_grow (dwB ratio : Nat) (st : ChkState)
    (inp : StreamIn) :
    (chkStep dwB ratio st inp).1.fifo.length ≤ st.fifo.length + 1 := by
  obtain ⟨fsm, regs, fifo⟩ := st
  obtain ⟨v, e, rd⟩ := inp
  cases fsm <;> cases hv : v <;> cases hrd : rd <;>
    by_cases hfull : fifo.length = ratio <;>
      simp_all [chkStep] <;> omega

theorem chkStep_quiet (dwB ratio : Nat) (st : ChkState) (inp : StreamIn)
    (h : st.fifo.length < ratio) :
    (chkStep dwB ratio st inp).2.sourceValid = false ∧
    (chkStep dwB ratio st inp).2.errorPulse = false := by
  obtain ⟨fsm, regs, fifo⟩ := st
  have hne : (fifo.length == ratio) = false := by
    simp only [List.length_cons] at h
    simp
    omega
  simp [chkStep, hne]

theorem chkStep_reset_discard (dwB ratio : Nat) (st : ChkState)
    (inp : StreamIn) (h : st.fsm = .RESET) :
    (chkStep dwB ratio st inp).1.fifo = [] ∧
    (chkStep dwB ratio st inp).1.fsm = .IDLE ∧
    (chkStep dwB ratio st inp).1.regs = crc32Reset dwB := by
  obtain ⟨fsm, regs, fifo⟩ := st
  subst h
  simp [chkStep]

theorem chkExec_quiet (dwB ratio : Nat) :
    ∀ (xs : List Elem) (st : ChkState),
      st.fifo.length + xs.length ≤ ratio →
      ∀ o ∈ (chkExec dwB ratio st (mkInputs xs)).2,
        o.sourceValid = false ∧ o.errorPulse = false := by
  intro xs
  induction xs with
  | nil => intro st _ o ho; simp [mkInputs, chkExec] at ho
  | cons x rest ih =>
    intro st h o ho
    simp only [mkInputs, List.map_cons] at ho
    rw [chkExec_cons] at ho
    rcases List.mem_cons.mp ho with ho | ho
    · subst ho
      exact chkStep_quiet dwB ratio st _
        (by simp only [List.length_cons] at h; omega)
    · refine ih (chkStep dwB ratio st ⟨true, x, true⟩).1 ?_ o ?_
      · have := chkStep_fifo_grow dwB ratio st ⟨true, x, true⟩
        simp only [List.length_cons] at h
        omega
      · simpa [mkInputs] using ho

theorem chkExec_to_reset (dwB ratio : Nat) :
    ∀ (xs : List Elem) (st : ChkState), st.fsm = .COPY →
      st.fifo.length + xs.length ≤ ratio →
      xs ≠ [] →
      (∀ e ∈ xs.dropLast, e.last = false) →
      (xs.getLastD default).last = true →
      (chkExec dwB ratio st (mkInputs xs)).1.fsm = .RESET := by
  intro xs
  induction xs with
  | nil => intro st _ _ hne; exact absurd rfl hne
  | cons x rest ih =>
    intro st hfsm h _ hdrop hlast
    obtain ⟨fsm, regs, fifo⟩ := st
    simp only at hfsm
    subst hfsm
    cases rest with
    | nil =>
      have hx : x.last = true := by simpa using hlast
      have hne : (fifo.length == ratio) = false := by
        simp only [List.length_cons, List.length_nil] at h
        simp
        omega
      simp [mkInputs, chkExec, chkStep, hne, hx]
    | cons y t =>
      have hx : x.last = false := by
        apply hdrop
        simp [List.dropLast_cons_of_ne_nil]
      have hne : (fifo.length == ratio) = false := by
        simp only [List.length_cons] at h
        simp
        omega
      have hstep1 : (chkStep dwB ratio ⟨.COPY, regs, fifo⟩
          ⟨true, x, true⟩).1.fsm = .COPY := by
        simp [chkStep, hne, hx]
      have hrec := ih (chkStep dwB ratio ⟨.COPY, regs, fifo⟩
          ⟨true, x, true⟩).1 hstep1
        (by have := chkStep_fifo_grow dwB ratio ⟨.COPY, regs, fifo⟩
              ⟨true, x, true⟩
            simp only [List.length_cons] at h ⊢
            simp only [List.length_nil] at this
            omega)
        (by simp)
        (by intro e he
            apply hdrop
            rw [List.dropLast_cons_of_ne_nil (by simp)]
            exact List.mem_cons_of_mem x he)
        (by rw [getLastD_cons_of_ne_nil x (y :: t) (by simp)] at hlast
            exact hlast)
      simp only [mkInputs, List.map_cons]
      rw [chkExec_cons]
      simpa [mkInputs] using hrec

/-- C10 counterexample: a complete ONE-element packet (total count 1 ≤
ratio = 4) does NOT send the state machine back to RESET and does NOT
discard the buffered element: the IDLE state's transition ignores
`sink.last`, so the checker ends the packet in COPY with the element
still staged in the FIFO. -/
theorem C10_counterexample :
    (chkExec 1 4 ⟨.IDLE, crc32Reset 1, []⟩
        (mkInputs [⟨5, true, false⟩])).1.fsm = .COPY ∧
    (chkExec 1 4 ⟨.IDLE, crc32Reset 1, []⟩
        (mkInputs [⟨5, true, false⟩])).1.fifo = [⟨5, true, false⟩] := by
  constructor <;> decide

/-- C10 (amended): for any packet of at most `ratio` elements fed to the
checker from its post-reset IDLE state with upstream always valid and
downstream always ready, no element is ever released (`source.valid`
stays low throughout) and the error pulse never fires; if the packet has
at least TWO elements, with `last` only on its final element, the FSM is
in RESET once the packet is consumed and the following cycle flushes the
staging FIFO.  (For one-element packets the FSM instead lands in COPY
with the element retained — see the counterexample.) -/
theorem C10_short_packet (dwB ratio : Nat) (xs : List Elem)
    (hlen : xs.length ≤ ratio) :
    (∀ o ∈ (chkExec dwB ratio ⟨.IDLE, crc32Reset dwB, []⟩ (mkInputs xs)).2,
      o.sourceValid = false ∧ o.errorPulse = false) ∧
    (2 ≤ xs.length → (∀ e ∈ xs.dropLast, e.last = false) →
      (xs.getLastD default).last = true →
      (chkExec dwB ratio ⟨.IDLE, crc32Reset dwB, []⟩
          (mkInputs xs)).1.fsm = .RESET ∧
        ∀ inp : StreamIn,
          (chkStep dwB ratio
            (chkExec dwB ratio ⟨.IDLE, crc32Reset dwB, []⟩
              (mkInputs xs)).1 inp).1.fifo = []) := by
  constructor
  · exact chkExec_quiet dwB ratio xs _ (by simpa using hlen)
  · intro h2 hdrop hlast
    cases xs with
    | nil => simp at h2
    | cons x rest =>
      cases rest with
      | nil => simp at h2
      | cons y t =>
        have hx : x.last = false := by
          apply hdrop
          simp [List.dropLast_cons_of_ne_nil]
        have hne : ((([] : List Elem)).length == ratio) = false := by
          simp only [List.length_cons] at hlen
          simp
          omega
        have hstep1 : (chkStep dwB ratio ⟨.IDLE, crc32Reset dwB, []⟩
            ⟨true, x, true⟩).1.fsm = .COPY := by
          simp [chkStep, hne]
        have hreset := chkExec_to_reset dwB ratio (y :: t)
          (chkStep dwB ratio ⟨.IDLE, crc32Reset dwB, []⟩
            ⟨true, x, true⟩).1 hstep1
          (by have := chkStep_fifo_grow dwB ratio
                ⟨.IDLE, crc32Reset dwB, []⟩ ⟨true, x, true⟩
              simp only [List.length_cons] at hlen ⊢
              simp only [List.length_nil] at this
              omega)
          (by simp)
          (by intro e he
              apply hdrop
              rw [List.dropLast_cons_of_ne_nil (by simp)]
              exact List.mem_cons_of_mem x he)
          (by rw [getLastD_cons_of_ne_nil x (y :: t) (by simp)] at hlast
              exact hlast)
        have hfin : (chkExec dwB ratio ⟨.IDLE, crc32Reset dwB, []⟩
            (mkInputs (x :: y :: t))).1.fsm = .RESET := by
          simp only [mkInputs, List.map_cons]
          rw [chkExec_cons]
          simpa [mkInputs] using hreset
        exact ⟨hfin,
          fun inp => (chkStep_reset_discard dwB ratio _ inp hfin).1⟩

theorem C10_short_packet_witness :
    (([⟨1, false, false⟩, ⟨2, true, false⟩] : List Elem).length ≤ 4) ∧
    (chkExec 1 4 ⟨.IDLE, crc32Reset 1, []⟩
        (mkInputs [⟨1, false, false⟩, ⟨2, true, false⟩])).1.fsm = .RESET ∧
    (chkStep 1 4
        (chkExec 1 4 ⟨.IDLE, crc32Reset 1, []⟩
          (mkInputs [⟨1, false, false⟩, ⟨2, true, false⟩])).1
        ⟨true, ⟨9, false, false⟩, true⟩).1.fifo = [] := by
  have h := C10_short_packet 1 4 [⟨1, false, false⟩, ⟨2, true, false⟩]
    (by decide)
  have h2 := h.2 (by decide) (by decide) (by decide)
  exact ⟨by decide, h2.1, h2.2 ⟨true, ⟨9, false, false⟩, true⟩⟩

end LiteEth
